import Mathlib

/-!
Verification of a Rust tic-tac-toe engine (minimax move selection).

The board is a list of 9 characters (the Rust code uses `[char; 9]`), a cell
being `' '` when empty or a player's mark (`'X'` / `'O'`) otherwise.  The Rust
functions mutate the board in place during search and restore it before
returning; here they are embedded in state-passing style: each function that
mutates the board returns the final board together with its result.

The recursive search `minimax` is embedded as `minimaxF`, structurally
recursive on an explicit fuel argument and returning `none` when the fuel runs
out; `minimax` instantiates the fuel at one more than the number of empty
cells, which is proved sufficient below, so the embedding is total exactly
where the Rust recursion terminates.
-/

namespace TicTacToe

/-- The two-variant `Player` enum of the source. -/
inductive Player : Type where
  | X : Player
  | O : Player
deriving DecidableEq, Repr

/-- Rust `Player::toggle`: X→O, O→X. -/
def Player.toggle : Player → Player
  | Player.X => Player.O
  | Player.O => Player.X

/-- Rust `Player::as_char`: the display mark of a player. -/
def Player.as_char : Player → Char
  | Player.X => 'X'
  | Player.O => 'O'

/-- The board: the Rust `[char; 9]` array, as a list of characters.  All
functions read out-of-range cells as `' '` (the Rust indices are the literals
0..8 on a 9-element array, so the default is never consulted on well-formed
boards). -/
abbrev Board : Type := List Char

/-- Cell lookup, `board[i]`. -/
def Board.get (board : Board) (i : Nat) : Char :=
  List.getD board i ' '

/-- Cell update, `board[i] = c`. -/
def Board.setC (board : Board) (i : Nat) (c : Char) : Board :=
  List.set board i c

/-- Rust `board.len()`. -/
def Board.len (board : Board) : Nat :=
  List.length board

/-- The `check_line` closure inside `check_winner`: true iff the three indexed
cells all hold `player`'s mark. -/
def check_line (board : Board) (player : Char) (a b c : Nat) : Bool :=
  board.get a == player && board.get b == player && board.get c == player

/-- Rust `check_winner`: for each player in the order `[X, O]`, scan the three
rows, the three columns and the two diagonals, returning the first player
found holding a complete line. -/
def check_winner (board : Board) : Option Player :=
  let lineFound : Player → Bool := fun player =>
    let player_char := player.as_char
    ((List.range 3).any fun row =>
      check_line board player_char (row * 3) (row * 3 + 1) (row * 3 + 2)) ||
    ((List.range 3).any fun col =>
      check_line board player_char col (col + 3) (col + 6)) ||
    (check_line board player_char 0 4 8 || check_line board player_char 2 4 6)
  if lineFound Player.X then some Player.X
  else if lineFound Player.O then some Player.O
  else none

/-- Rust `evaluate_board`: +1 when the computer has won, −1 when the human has won,
0 otherwise (scores are `i32` in the source; values stay in {−1,0,1}). -/
def evaluate_board (board : Board) (computer_player human_player : Player) : Int :=
  match check_winner board with
  | some player =>
      if player = computer_player then 1
      else if player = human_player then -1
      else 0
  | none => 0

/-- Rust `is_board_full`: true iff no cell is `' '`. -/
def is_board_full (board : Board) : Bool :=
  board.all fun cell => cell != ' '

/-- Rust `i32::MIN`, the initial accumulator of the maximizing loop. -/
def i32_min : Int := -(2 ^ 31)

/-- Rust `i32::MAX`, the initial accumulator of the minimizing loop. -/
def i32_max : Int := 2 ^ 31 - 1

/-- The `for i in 0..board.len()` loop body shared by the two branches of
`minimax`: `indices` is the remaining index list, `recur` the recursive call
(with the depth already decremented and the flag flipped), `mark` the mark of
the side to move, and `agg` the aggregation (`max` or `min`) applied to the
running best score.  Each empty cell is tentatively marked, scored through
`recur`, and restored to `' '` afterwards.  Propagates `none` (fuel
exhaustion) from `recur`. -/
def searchLoop (recur : Board → Option (Board × Int)) (mark : Char)
    (agg : Int → Int → Int) :
    List Nat → Board → Int → Option (Board × Int)
  | [], board, best_score => some (board, best_score)
  | i :: rest, board, best_score =>
      if board.get i == ' ' then
        match recur (board.setC i mark) with
        | none => none
        | some (board2, score) =>
            searchLoop recur mark agg rest (board2.setC i ' ') (agg best_score score)
      else searchLoop recur mark agg rest board best_score

/-- Rust `minimax`, fuelled.  Returns the final board (always the input board, as
proved below) together with the score; `none` when the fuel is exhausted
before the recursion bottoms out. -/
def minimaxF :
    Nat → Board → Int → Bool → Player → Player → Option (Board × Int)
  | 0, _, _, _, _, _ => none
  | Nat.succ fuel, board, depth, is_maximizing, computer_player, human_player =>
      let score := evaluate_board board computer_player human_player
      if score ≠ 0 ∨ depth = 0 ∨ is_board_full board then
        some (board, score)
      else if is_maximizing then
        searchLoop
          (fun b => minimaxF fuel b (depth - 1) false computer_player human_player)
          computer_player.as_char max (List.range board.len) board i32_min
      else
        searchLoop
          (fun b => minimaxF fuel b (depth - 1) true computer_player human_player)
          human_player.as_char min (List.range board.len) board i32_max

/-- Number of empty cells of a board; the measure showing the Rust recursion
terminates. -/
def countEmpty (board : Board) : Nat :=
  List.countP (fun c => c == ' ') board

/-- Rust `minimax`: the fuelled search run with (provably sufficient) fuel
`countEmpty board + 1`. -/
def minimax (board : Board) (depth : Int) (is_maximizing : Bool)
    (computer_player human_player : Player) : Board × Int :=
  (minimaxF (countEmpty board + 1) board depth is_maximizing
      computer_player human_player).getD (board, 0)

/-- The score component of `minimax`. -/
def minimaxScore (board : Board) (depth : Int) (is_maximizing : Bool)
    (computer_player human_player : Player) : Int :=
  (minimax board depth is_maximizing computer_player human_player).2

/-- The scanning loop of `computer_turn_minimax`: for each empty cell,
tentatively place the computer's mark, score by `minimax` with depth 9 and
`is_maximizing = false`, restore the cell, and keep the index of the strictly
best score seen so far. -/
def ctmLoop (computer_player human_player : Player) :
    List Nat → Board → Int → Option Nat → Board × Int × Option Nat
  | [], board, best_score, best_move => (board, best_score, best_move)
  | i :: rest, board, best_score, best_move =>
      if board.get i == ' ' then
        let sb := minimax (board.setC i computer_player.as_char) 9 false
          computer_player human_player
        let board2 := sb.1.setC i ' '
        if sb.2 > best_score then
          ctmLoop computer_player human_player rest board2 sb.2 (some i)
        else
          ctmLoop computer_player human_player rest board2 best_score best_move
      else ctmLoop computer_player human_player rest board best_score best_move

/-- Rust `computer_turn_minimax`: scan all cells, then commit the computer's mark
at the recorded best move, if any. -/
def computer_turn_minimax (board : Board)
    (computer_player human_player : Player) : Board :=
  let r := ctmLoop computer_player human_player (List.range board.len)
    board i32_min none
  match r.2.2 with
  | some move_index => r.1.setC move_index computer_player.as_char
  | none => r.1

/-- The list of indices of empty cells, in increasing order. -/
def empties (board : Board) : List Nat :=
  (List.range board.len).filter fun i => board.get i == ' '

/-- Modelled from the spec (§4.1 `winner`): a reference winner check that
evaluates all 8 winning lines (3 rows, 3 columns, 2 diagonals) for both
players and returns, in the fixed enumeration order `[X, O]`, the first
player holding a complete line. -/
def winner_spec (board : Board) : Option Player :=
  let lines : List (List Nat) :=
    [[0, 1, 2], [3, 4, 5], [6, 7, 8],
     [0, 3, 6], [1, 4, 7], [2, 5, 8],
     [0, 4, 8], [2, 4, 6]]
  let holds : Player → Bool := fun player =>
    lines.any fun line => line.all fun ix => board.get ix == player.as_char
  if holds Player.X then some Player.X
  else if holds Player.O then some Player.O
  else none

/-- A strategy certificate for the side to move at a maximizing position: the
move to play, and a sub-certificate for every opponent reply that keeps the
game going. -/
inductive Strat : Type where
  | node : Nat → List (Nat × Strat) → Strat

/-- Find the sub-certificate recorded for opponent reply `i`. -/
def lookupStrat : List (Nat × Strat) → Nat → Option Strat
  | [], _ => none
  | (j, s) :: rest, i => if j = i then some s else lookupStrat rest i

/-- Check a strategy certificate: at the current (maximizing) position, if the
position is terminal the terminal score must be non-negative; otherwise the
recorded move is played, and after it either the position is terminal with a
non-negative score, or every legal opponent reply must have a recorded
sub-certificate that checks in turn.  A `true` result witnesses that the
maximizing side's game value is non-negative (proved below). -/
def stratCheck (computer_player human_player : Player) :
    Nat → Strat → Board → Bool
  | 0, _, _ => false
  | Nat.succ fuel, Strat.node mv replies, board =>
      if evaluate_board board computer_player human_player ≠ 0 ∨
          is_board_full board then
        decide (0 ≤ evaluate_board board computer_player human_player)
      else if mv < board.len ∧ board.get mv = ' ' then
        let b2 := board.setC mv computer_player.as_char
        if evaluate_board b2 computer_player human_player ≠ 0 ∨
            is_board_full b2 then
          decide (0 ≤ evaluate_board b2 computer_player human_player)
        else
          (List.range b2.len).all fun i =>
            !(b2.get i == ' ') ||
            (match lookupStrat replies i with
             | some s => stratCheck computer_player human_player fuel s
                 (b2.setC i human_player.as_char)
             | none => false)
      else false

/-- The empty board at game start (`let mut board = [' '; 9]`). -/
def emptyBoard : Board :=
  [' ', ' ', ' ', ' ', ' ', ' ', ' ', ' ', ' ']

/-- The positions reachable in the game loop of `main` when the computer
moves first on the empty board and every computer move is chosen by
`computer_turn_minimax`, while the human may play any legal move.  The flag
is `true` when it is the computer's turn.  Moves are only played from
positions where the loop has not yet broken (no winner, board not full),
mirroring the win/tie checks of the loop. -/
inductive GamePos (computer_player human_player : Player) :
    Board → Bool → Prop where
  | init : GamePos computer_player human_player emptyBoard true
  | cmove {b : Board} :
      GamePos computer_player human_player b true →
      check_winner b = none → is_board_full b = false →
      GamePos computer_player human_player
        (computer_turn_minimax b computer_player human_player) false
  | hmove {b : Board} {i : Nat} :
      GamePos computer_player human_player b false →
      check_winner b = none → is_board_full b = false →
      i < b.len → b.get i = ' ' →
      GamePos computer_player human_player
        (b.setC i human_player.as_char) true

/-! Basic facts about cells, `setC` and `countEmpty`. -/

theorem len_setC (board : Board) (i : Nat) (c : Char) :
    (board.setC i c).len = board.len :=
  List.length_set board i c

theorem setC_space_of_get_space (board : Board) (i : Nat)
    (h : board.get i = ' ') : board.setC i ' ' = board := by
  induction board generalizing i with
  | nil => rfl
  | cons d t ih =>
      cases i with
      | zero =>
          have hd : d = ' ' := by simpa [Board.get] using h
          subst hd; rfl
      | succ n =>
          have h' : Board.get t n = ' ' := by simpa [Board.get] using h
          show d :: Board.setC t n ' ' = d :: t
          rw [ih n h']

theorem setC_setC_space (board : Board) (i : Nat) (c : Char)
    (h : board.get i = ' ') : (board.setC i c).setC i ' ' = board := by
  show (List.set board i c).set i ' ' = board
  rw [List.set_set]
  exact setC_space_of_get_space board i h

theorem get_setC_other (board : Board) (i j : Nat) (c : Char) (h : i ≠ j) :
    (board.setC i c).get j = board.get j := by
  induction board generalizing i j with
  | nil => rfl
  | cons d t ih =>
      cases i with
      | zero =>
          cases j with
          | zero => exact absurd rfl h
          | succ m => rfl
      | succ n =>
          cases j with
          | zero => rfl
          | succ m =>
              show Board.get (Board.setC t n c) m = Board.get t m
              exact ih n m fun e => h (by rw [e])

theorem get_setC_self (board : Board) (i : Nat) (c : Char)
    (h : i < board.len) : (board.setC i c).get i = c := by
  induction board generalizing i with
  | nil => exact absurd h (by simp [Board.len])
  | cons d t ih =>
      cases i with
      | zero => rfl
      | succ n =>
          show Board.get (Board.setC t n c) n = c
          exact ih n (Nat.lt_of_succ_lt_succ h)

theorem countEmpty_setC (board : Board) (i : Nat) (c : Char)
    (hi : i < board.len) (he : board.get i = ' ') (hc : c ≠ ' ') :
    countEmpty (board.setC i c) + 1 = countEmpty board := by
  induction board generalizing i with
  | nil => exact absurd hi (by simp [Board.len])
  | cons d t ih =>
      cases i with
      | zero =>
          have hd : d = ' ' := by simpa [Board.get] using he
          subst hd
          show List.countP (fun x => x == ' ') (c :: t) + 1 =
            List.countP (fun x => x == ' ') (' ' :: t)
          rw [List.countP_cons, List.countP_cons]
          simp [hc]
      | succ n =>
          have hi' : n < Board.len t := Nat.lt_of_succ_lt_succ hi
          have he' : Board.get t n = ' ' := by simpa [Board.get] using he
          have h2 := ih n hi' he'
          unfold countEmpty at h2
          show List.countP (fun x => x == ' ') (d :: Board.setC t n c) + 1 =
            List.countP (fun x => x == ' ') (d :: t)
          rw [List.countP_cons, List.countP_cons]
          omega

theorem countEmpty_le_len (board : Board) : countEmpty board ≤ board.len :=
  List.countP_le_length _

theorem countEmpty_eq_zero_iff (board : Board) :
    countEmpty board = 0 ↔ is_board_full board = true := by
  unfold countEmpty is_board_full
  rw [List.countP_eq_zero, List.all_eq_true]
  constructor
  · intro h x hx
    have := h x hx
    simpa [bne] using this
  · intro h x hx
    have := h x hx
    simpa [bne] using this

theorem not_full_exists_empty (board : Board)
    (h : is_board_full board = false) :
    ∃ i, i < board.len ∧ board.get i = ' ' := by
  have h0 : countEmpty board ≠ 0 := by
    intro hz
    rw [(countEmpty_eq_zero_iff board).mp hz] at h
    simp at h
  have : ∃ c ∈ board, (c == ' ') = true := by
    by_contra hno
    push_neg at hno
    exact h0 (List.countP_eq_zero.mpr (by simpa using hno))
  obtain ⟨c, hc, hcs⟩ := this
  obtain ⟨n, hn, hget⟩ := List.mem_iff_getElem.mp hc
  refine ⟨n, hn, ?_⟩
  have : board.get n = board[n] := by
    show List.getD board n ' ' = board[n]
    exact List.getD_eq_getElem board ' ' hn
  rw [this, hget]
  simpa using hcs

theorem mem_empties (board : Board) (i : Nat) :
    i ∈ empties board ↔ i < board.len ∧ board.get i = ' ' := by
  unfold empties
  rw [List.mem_filter, List.mem_range]
  simp

theorem empties_ne_nil_of_not_full (board : Board)
    (h : is_board_full board = false) : empties board ≠ [] := by
  obtain ⟨i, hi, he⟩ := not_full_exists_empty board h
  intro hnil
  have : i ∈ empties board := (mem_empties board i).mpr ⟨hi, he⟩
  rw [hnil] at this
  exact absurd this (List.not_mem_nil i)

/-! Folding with `max` / `min` over integer lists. -/

theorem foldl_max_ge_acc : ∀ (l : List Int) (acc : Int), acc ≤ l.foldl max acc
  | [], _ => le_refl _
  | i :: rest, acc =>
      le_trans (le_max_left acc i) (foldl_max_ge_acc rest (max acc i))

theorem foldl_max_ge_mem (l : List Int) (x : Int) (hx : x ∈ l) :
    ∀ acc : Int, x ≤ l.foldl max acc := by
  induction l with
  | nil => exact absurd hx (List.not_mem_nil x)
  | cons i rest ih =>
      intro acc
      rcases List.mem_cons.mp hx with h | h
      · subst h
        exact le_trans (le_max_right acc x) (foldl_max_ge_acc rest (max acc x))
      · exact ih h (max acc i)

theorem foldl_max_le (l : List Int) (c : Int) (hl : ∀ x ∈ l, x ≤ c) :
    ∀ acc : Int, acc ≤ c → l.foldl max acc ≤ c := by
  induction l with
  | nil => intro acc h; exact h
  | cons i rest ih =>
      intro acc hacc
      exact ih (fun x hx => hl x (List.mem_cons_of_mem i hx)) (max acc i)
        (max_le hacc (hl i (List.mem_cons_self i rest)))

theorem foldl_max_mem_or :
    ∀ (l : List Int) (acc : Int), l.foldl max acc = acc ∨ l.foldl max acc ∈ l
  | [], _ => Or.inl rfl
  | i :: rest, acc => by
      rcases foldl_max_mem_or rest (max acc i) with h | h
      · rcases max_choice acc i with hm | hm
        · exact Or.inl (by rw [List.foldl_cons, h, hm])
        · refine Or.inr ?_
          rw [List.foldl_cons, h, hm]
          exact List.mem_cons_self i rest
      · exact Or.inr (List.mem_cons_of_mem i h)

theorem foldl_min_le_acc : ∀ (l : List Int) (acc : Int), l.foldl min acc ≤ acc
  | [], _ => le_refl _
  | i :: rest, acc =>
      le_trans (foldl_min_le_acc rest (min acc i)) (min_le_left acc i)

theorem foldl_min_le_mem (l : List Int) (x : Int) (hx : x ∈ l) :
    ∀ acc : Int, l.foldl min acc ≤ x := by
  induction l with
  | nil => exact absurd hx (List.not_mem_nil x)
  | cons i rest ih =>
      intro acc
      rcases List.mem_cons.mp hx with h | h
      · subst h
        exact le_trans (foldl_min_le_acc rest (min acc x)) (min_le_right acc x)
      · exact ih h (min acc i)

theorem foldl_min_ge (l : List Int) (c : Int) (hl : ∀ x ∈ l, c ≤ x) :
    ∀ acc : Int, c ≤ acc → c ≤ l.foldl min acc := by
  induction l with
  | nil => intro acc h; exact h
  | cons i rest ih =>
      intro acc hacc
      exact ih (fun x hx => hl x (List.mem_cons_of_mem i hx)) (min acc i)
        (le_min hacc (hl i (List.mem_cons_self i rest)))

theorem foldl_min_mem_or :
    ∀ (l : List Int) (acc : Int), l.foldl min acc = acc ∨ l.foldl min acc ∈ l
  | [], _ => Or.inl rfl
  | i :: rest, acc => by
      rcases foldl_min_mem_or rest (min acc i) with h | h
      · rcases min_choice acc i with hm | hm
        · exact Or.inl (by rw [List.foldl_cons, h, hm])
        · refine Or.inr ?_
          rw [List.foldl_cons, h, hm]
          exact List.mem_cons_self i rest
      · exact Or.inr (List.mem_cons_of_mem i h)

theorem foldl_congr_on {α β : Type} (l : List α) (g₁ g₂ : β → α → β)
    (h : ∀ acc, ∀ i ∈ l, g₁ acc i = g₂ acc i) :
    ∀ acc, l.foldl g₁ acc = l.foldl g₂ acc := by
  induction l with
  | nil => intro acc; rfl
  | cons i rest ih =>
      intro acc
      rw [List.foldl_cons, List.foldl_cons,
        h acc i (List.mem_cons_self i rest)]
      exact ih (fun a j hj => h a j (List.mem_cons_of_mem i hj)) _

theorem foldl_filter_map {α : Type} (p : α → Bool) (f : α → Int)
    (g : Int → Int → Int) :
    ∀ (l : List α) (acc : Int),
      ((l.filter p).map f).foldl g acc =
        l.foldl (fun a i => if p i then g a (f i) else a) acc := by
  intro l
  induction l with
  | nil => intro acc; rfl
  | cons i rest ih =>
      intro acc
      by_cases hp : p i = true
      · rw [List.filter_cons_of_pos hp, List.map_cons, List.foldl_cons,
          List.foldl_cons, if_pos hp]
        exact ih (g acc (f i))
      · rw [List.filter_cons_of_neg (by simpa using hp), List.foldl_cons,
          if_neg hp]
        exact ih acc

/-! Characterization of the search loop and the fuelled `minimax`. -/

theorem as_char_ne_space (p : Player) : p.as_char ≠ ' ' := by
  cases p <;> decide

theorem searchLoop_eq (recur : Board → Option (Board × Int)) (mark : Char)
    (agg : Int → Int → Int) (f : Nat → Int) :
    ∀ (l : List Nat) (board : Board) (best : Int),
      (∀ i ∈ l, board.get i = ' ' →
          recur (board.setC i mark) = some (board.setC i mark, f i)) →
      searchLoop recur mark agg l board best =
        some (board,
          l.foldl
            (fun acc i => if board.get i == ' ' then agg acc (f i) else acc)
            best) := by
  intro l
  induction l with
  | nil => intro board best _; rfl
  | cons i rest ih =>
      intro board best hrec
      by_cases hsp : board.get i = ' '
      · have hcond : (board.get i == ' ') = true := by simpa using hsp
        have hr := hrec i (List.mem_cons_self i rest) hsp
        rw [List.foldl_cons]
        simp only [searchLoop, hcond, if_true, hr]
        rw [setC_setC_space board i mark hsp]
        rw [ih board (agg best (f i))
          (fun j hj => hrec j (List.mem_cons_of_mem i hj))]
      · have hcond : (board.get i == ' ') = false := by simpa using hsp
        rw [List.foldl_cons]
        simp only [searchLoop, hcond, Bool.false_eq_true, if_false]
        rw [ih board best (fun j hj => hrec j (List.mem_cons_of_mem i hj))]

theorem minimaxF_succ_terminal (F : Nat) (board : Board) (depth : Int)
    (m : Bool) (cp hp : Player)
    (hterm : evaluate_board board cp hp ≠ 0 ∨ depth = 0 ∨
      is_board_full board = true) :
    minimaxF (F + 1) board depth m cp hp =
      some (board, evaluate_board board cp hp) := by
  simp only [minimaxF]
  rw [if_pos hterm]

theorem minimaxF_succ_max (F : Nat) (board : Board) (depth : Int)
    (cp hp : Player)
    (hterm : ¬(evaluate_board board cp hp ≠ 0 ∨ depth = 0 ∨
      is_board_full board = true)) :
    minimaxF (F + 1) board depth true cp hp =
      searchLoop (fun b => minimaxF F b (depth - 1) false cp hp)
        cp.as_char max (List.range board.len) board i32_min := by
  simp only [minimaxF]
  rw [if_neg hterm]
  rfl

theorem minimaxF_succ_min (F : Nat) (board : Board) (depth : Int)
    (cp hp : Player)
    (hterm : ¬(evaluate_board board cp hp ≠ 0 ∨ depth = 0 ∨
      is_board_full board = true)) :
    minimaxF (F + 1) board depth false cp hp =
      searchLoop (fun b => minimaxF F b (depth - 1) true cp hp)
        hp.as_char min (List.range board.len) board i32_max := by
  simp only [minimaxF]
  rw [if_neg hterm]
  rfl

theorem not_terminal_facts (board : Board) (depth : Int) (cp hp : Player)
    (hterm : ¬(evaluate_board board cp hp ≠ 0 ∨ depth = 0 ∨
      is_board_full board = true)) :
    is_board_full board = false ∧ 1 ≤ countEmpty board := by
  have hnf : is_board_full board = false := by
    rcases Bool.eq_false_or_eq_true (is_board_full board) with h | h
    · exact absurd (Or.inr (Or.inr h)) hterm
    · exact h
  refine ⟨hnf, ?_⟩
  rcases Nat.eq_zero_or_pos (countEmpty board) with h | h
  · rw [(countEmpty_eq_zero_iff board).mp h] at hnf
    simp at hnf
  · exact h

theorem minimaxF_spec :
    ∀ (fuel : Nat) (board : Board) (depth : Int) (m : Bool) (cp hp : Player),
      countEmpty board < fuel →
      minimaxF fuel board depth m cp hp =
        some (board, minimaxScore board depth m cp hp) := by
  intro fuel
  induction fuel using Nat.strong_induction_on with
  | _ fuel IH =>
  intro board depth m cp hp hfuel
  cases fuel with
  | zero => omega
  | succ F =>
    by_cases hterm : evaluate_board board cp hp ≠ 0 ∨ depth = 0 ∨
      is_board_full board = true
    · rw [minimaxF_succ_terminal F board depth m cp hp hterm]
      unfold minimaxScore minimax
      rw [minimaxF_succ_terminal (countEmpty board) board depth m cp hp hterm]
      rfl
    · obtain ⟨hnf, hce⟩ := not_terminal_facts board depth cp hp hterm
      cases m with
      | true =>
          have hf : ∀ i ∈ List.range board.len, board.get i = ' ' →
              minimaxF F (board.setC i cp.as_char) (depth - 1) false cp hp =
                some (board.setC i cp.as_char,
                  minimaxScore (board.setC i cp.as_char) (depth - 1)
                    false cp hp) := by
            intro i hi hsp
            have hi' : i < board.len := List.mem_range.mp hi
            have hcc := countEmpty_setC board i cp.as_char hi' hsp
              (as_char_ne_space cp)
            exact IH F (Nat.lt_succ_self F) _ _ _ _ _ (by omega)
          have hf2 : ∀ i ∈ List.range board.len, board.get i = ' ' →
              minimaxF (countEmpty board) (board.setC i cp.as_char)
                  (depth - 1) false cp hp =
                some (board.setC i cp.as_char,
                  minimaxScore (board.setC i cp.as_char) (depth - 1)
                    false cp hp) := by
            intro i hi hsp
            have hi' : i < board.len := List.mem_range.mp hi
            have hcc := countEmpty_setC board i cp.as_char hi' hsp
              (as_char_ne_space cp)
            exact IH (countEmpty board) (by omega) _ _ _ _ _ (by omega)
          rw [minimaxF_succ_max F board depth cp hp hterm]
          rw [searchLoop_eq (fun b => minimaxF F b (depth - 1) false cp hp)
            cp.as_char max
            (fun i => minimaxScore (board.setC i cp.as_char) (depth - 1)
              false cp hp)
            (List.range board.len) board i32_min hf]
          unfold minimaxScore minimax
          rw [minimaxF_succ_max (countEmpty board) board depth cp hp hterm]
          rw [searchLoop_eq
            (fun b => minimaxF (countEmpty board) b (depth - 1) false cp hp)
            cp.as_char max
            (fun i => minimaxScore (board.setC i cp.as_char) (depth - 1)
              false cp hp)
            (List.range board.len) board i32_min hf2]
          rfl
      | false =>
          have hf : ∀ i ∈ List.range board.len, board.get i = ' ' →
              minimaxF F (board.setC i hp.as_char) (depth - 1) true cp hp =
                some (board.setC i hp.as_char,
                  minimaxScore (board.setC i hp.as_char) (depth - 1)
                    true cp hp) := by
            intro i hi hsp
            have hi' : i < board.len := List.mem_range.mp hi
            have hcc := countEmpty_setC board i hp.as_char hi' hsp
              (as_char_ne_space hp)
            exact IH F (Nat.lt_succ_self F) _ _ _ _ _ (by omega)
          have hf2 : ∀ i ∈ List.range board.len, board.get i = ' ' →
              minimaxF (countEmpty board) (board.setC i hp.as_char)
                  (depth - 1) true cp hp =
                some (board.setC i hp.as_char,
                  minimaxScore (board.setC i hp.as_char) (depth - 1)
                    true cp hp) := by
            intro i hi hsp
            have hi' : i < board.len := List.mem_range.mp hi
            have hcc := countEmpty_setC board i hp.as_char hi' hsp
              (as_char_ne_space hp)
            exact IH (countEmpty board) (by omega) _ _ _ _ _ (by omega)
          rw [minimaxF_succ_min F board depth cp hp hterm]
          rw [searchLoop_eq (fun b => minimaxF F b (depth - 1) true cp hp)
            hp.as_char min
            (fun i => minimaxScore (board.setC i hp.as_char) (depth - 1)
              true cp hp)
            (List.range board.len) board i32_max hf]
          unfold minimaxScore minimax
          rw [minimaxF_succ_min (countEmpty board) board depth cp hp hterm]
          rw [searchLoop_eq
            (fun b => minimaxF (countEmpty board) b (depth - 1) true cp hp)
            hp.as_char min
            (fun i => minimaxScore (board.setC i hp.as_char) (depth - 1)
              true cp hp)
            (List.range board.len) board i32_max hf2]
          rfl

theorem minimax_pair (board : Board) (depth : Int) (m : Bool)
    (cp hp : Player) :
    minimax board depth m cp hp =
      (board, minimaxScore board depth m cp hp) := by
  unfold minimax
  rw [minimaxF_spec (countEmpty board + 1) board depth m cp hp
    (Nat.lt_succ_self _)]
  rfl

theorem minimax_fst (board : Board) (depth : Int) (m : Bool)
    (cp hp : Player) : (minimax board depth m cp hp).1 = board := by
  rw [minimax_pair]

theorem minimaxScore_terminal (board : Board) (depth : Int) (m : Bool)
    (cp hp : Player)
    (hterm : evaluate_board board cp hp ≠ 0 ∨ depth = 0 ∨
      is_board_full board = true) :
    minimaxScore board depth m cp hp = evaluate_board board cp hp := by
  unfold minimaxScore minimax
  rw [minimaxF_succ_terminal (countEmpty board) board depth m cp hp hterm]
  rfl

theorem minimaxScore_of_max (board : Board) (depth : Int) (cp hp : Player)
    (hterm : ¬(evaluate_board board cp hp ≠ 0 ∨ depth = 0 ∨
      is_board_full board = true)) :
    minimaxScore board depth true cp hp =
      ((empties board).map fun i =>
        minimaxScore (board.setC i cp.as_char) (depth - 1) false cp hp).foldl
        max i32_min := by
  obtain ⟨hnf, hce⟩ := not_terminal_facts board depth cp hp hterm
  have hf : ∀ i ∈ List.range board.len, board.get i = ' ' →
      minimaxF (countEmpty board) (board.setC i cp.as_char) (depth - 1)
          false cp hp =
        some (board.setC i cp.as_char,
          minimaxScore (board.setC i cp.as_char) (depth - 1) false cp hp) := by
    intro i hi hsp
    have hi' : i < board.len := List.mem_range.mp hi
    have hcc := countEmpty_setC board i cp.as_char hi' hsp (as_char_ne_space cp)
    exact minimaxF_spec (countEmpty board) _ _ _ _ _ (by omega)
  unfold empties
  rw [foldl_filter_map (fun i => board.get i == ' ')
    (fun i => minimaxScore (board.setC i cp.as_char) (depth - 1) false cp hp)
    max (List.range board.len) i32_min]
  unfold minimaxScore minimax
  rw [minimaxF_succ_max (countEmpty board) board depth cp hp hterm]
  rw [searchLoop_eq
    (fun b => minimaxF (countEmpty board) b (depth - 1) false cp hp)
    cp.as_char max
    (fun i => minimaxScore (board.setC i cp.as_char) (depth - 1) false cp hp)
    (List.range board.len) board i32_min hf]
  rfl

theorem minimaxScore_of_min (board : Board) (depth : Int) (cp hp : Player)
    (hterm : ¬(evaluate_board board cp hp ≠ 0 ∨ depth = 0 ∨
      is_board_full board = true)) :
    minimaxScore board depth false cp hp =
      ((empties board).map fun i =>
        minimaxScore (board.setC i hp.as_char) (depth - 1) true cp hp).foldl
        min i32_max := by
  obtain ⟨hnf, hce⟩ := not_terminal_facts board depth cp hp hterm
  have hf : ∀ i ∈ List.range board.len, board.get i = ' ' →
      minimaxF (countEmpty board) (board.setC i hp.as_char) (depth - 1)
          true cp hp =
        some (board.setC i hp.as_char,
          minimaxScore (board.setC i hp.as_char) (depth - 1) true cp hp) := by
    intro i hi hsp
    have hi' : i < board.len := List.mem_range.mp hi
    have hcc := countEmpty_setC board i hp.as_char hi' hsp (as_char_ne_space hp)
    exact minimaxF_spec (countEmpty board) _ _ _ _ _ (by omega)
  unfold empties
  rw [foldl_filter_map (fun i => board.get i == ' ')
    (fun i => minimaxScore (board.setC i hp.as_char) (depth - 1) true cp hp)
    min (List.range board.len) i32_max]
  unfold minimaxScore minimax
  rw [minimaxF_succ_min (countEmpty board) board depth cp hp hterm]
  rw [searchLoop_eq
    (fun b => minimaxF (countEmpty board) b (depth - 1) true cp hp)
    hp.as_char min
    (fun i => minimaxScore (board.setC i hp.as_char) (depth - 1) true cp hp)
    (List.range board.len) board i32_max hf]
  rfl

theorem evaluate_board_range (board : Board) (cp hp : Player) :
    -1 ≤ evaluate_board board cp hp ∧ evaluate_board board cp hp ≤ 1 := by
  cases hw : check_winner board with
  | none => simp [evaluate_board, hw]
  | some p =>
      simp only [evaluate_board, hw]
      split_ifs <;> omega

theorem minimaxScore_range (board : Board) (depth : Int) (m : Bool)
    (cp hp : Player) :
    -1 ≤ minimaxScore board depth m cp hp ∧
      minimaxScore board depth m cp hp ≤ 1 := by
  generalize hn : countEmpty board = n
  induction n using Nat.strong_induction_on generalizing board depth m with
  | _ n IH =>
  by_cases hterm : evaluate_board board cp hp ≠ 0 ∨ depth = 0 ∨
    is_board_full board = true
  · rw [minimaxScore_terminal board depth m cp hp hterm]
    exact evaluate_board_range board cp hp
  · obtain ⟨hnf, hce⟩ := not_terminal_facts board depth cp hp hterm
    have hne := empties_ne_nil_of_not_full board hnf
    cases m with
    | true =>
        rw [minimaxScore_of_max board depth cp hp hterm]
        have hmem : ∀ x ∈ (empties board).map fun i =>
            minimaxScore (board.setC i cp.as_char) (depth - 1) false cp hp,
            -1 ≤ x ∧ x ≤ 1 := by
          intro x hx
          obtain ⟨i, hi, hfx⟩ := List.mem_map.mp hx
          obtain ⟨hilen, hisp⟩ := (mem_empties board i).mp hi
          have hcc := countEmpty_setC board i cp.as_char hilen hisp
            (as_char_ne_space cp)
          subst hfx
          exact IH (countEmpty (board.setC i cp.as_char)) (by omega) _ _ _ rfl
        obtain ⟨x₀, hx₀⟩ := List.exists_mem_of_ne_nil _
          (by simpa using hne :
            ((empties board).map fun i =>
              minimaxScore (board.setC i cp.as_char) (depth - 1) false cp hp)
              ≠ [])
        constructor
        · exact le_trans (hmem x₀ hx₀).1 (foldl_max_ge_mem _ x₀ hx₀ i32_min)
        · exact foldl_max_le _ 1 (fun x hx => (hmem x hx).2) i32_min
            (by norm_num [i32_min])
    | false =>
        rw [minimaxScore_of_min board depth cp hp hterm]
        have hmem : ∀ x ∈ (empties board).map fun i =>
            minimaxScore (board.setC i hp.as_char) (depth - 1) true cp hp,
            -1 ≤ x ∧ x ≤ 1 := by
          intro x hx
          obtain ⟨i, hi, hfx⟩ := List.mem_map.mp hx
          obtain ⟨hilen, hisp⟩ := (mem_empties board i).mp hi
          have hcc := countEmpty_setC board i hp.as_char hilen hisp
            (as_char_ne_space hp)
          subst hfx
          exact IH (countEmpty (board.setC i hp.as_char)) (by omega) _ _ _ rfl
        obtain ⟨x₀, hx₀⟩ := List.exists_mem_of_ne_nil _
          (by simpa using hne :
            ((empties board).map fun i =>
              minimaxScore (board.setC i hp.as_char) (depth - 1) true cp hp)
              ≠ [])
        constructor
        · exact foldl_min_ge _ (-1) (fun x hx => (hmem x hx).1) i32_max
            (by norm_num [i32_max])
        · exact le_trans (foldl_min_le_mem _ x₀ hx₀ i32_max) (hmem x₀ hx₀).2

/-- The depth cutoff is irrelevant as long as the depth is at least the
number of empty cells: the win/full terminal conditions always fire first. -/
theorem minimaxScore_depth_irrel (cp hp : Player) :
    ∀ (n : Nat) (board : Board) (m : Bool) (d₁ d₂ : Int),
      countEmpty board = n → (n : Int) ≤ d₁ → (n : Int) ≤ d₂ →
      minimaxScore board d₁ m cp hp = minimaxScore board d₂ m cp hp := by
  intro n
  induction n using Nat.strong_induction_on with
  | _ n IH =>
  intro board m d₁ d₂ hn hd₁ hd₂
  by_cases hsc : evaluate_board board cp hp ≠ 0
  · rw [minimaxScore_terminal board d₁ m cp hp (Or.inl hsc),
      minimaxScore_terminal board d₂ m cp hp (Or.inl hsc)]
  · by_cases hful : is_board_full board = true
    · rw [minimaxScore_terminal board d₁ m cp hp (Or.inr (Or.inr hful)),
        minimaxScore_terminal board d₂ m cp hp (Or.inr (Or.inr hful))]
    · have hce : 1 ≤ countEmpty board := by
        rcases Nat.eq_zero_or_pos (countEmpty board) with h | h
        · exact absurd ((countEmpty_eq_zero_iff board).mp h) hful
        · exact h
      have hterm₁ : ¬(evaluate_board board cp hp ≠ 0 ∨ d₁ = 0 ∨
          is_board_full board = true) := by
        push_neg
        refine ⟨not_not.mp hsc, ?_, by simpa using hful⟩
        omega
      have hterm₂ : ¬(evaluate_board board cp hp ≠ 0 ∨ d₂ = 0 ∨
          is_board_full board = true) := by
        push_neg
        refine ⟨not_not.mp hsc, ?_, by simpa using hful⟩
        omega
      have hchild : ∀ i ∈ empties board, ∀ (mk : Char), mk ≠ ' ' →
          countEmpty (board.setC i mk) = n - 1 := by
        intro i hi mk hmk
        obtain ⟨hilen, hisp⟩ := (mem_empties board i).mp hi
        have := countEmpty_setC board i mk hilen hisp hmk
        omega
      cases m with
      | true =>
          rw [minimaxScore_of_max board d₁ cp hp hterm₁,
            minimaxScore_of_max board d₂ cp hp hterm₂]
          have hmap : ((empties board).map fun i =>
              minimaxScore (board.setC i cp.as_char) (d₁ - 1) false cp hp) =
              (empties board).map fun i =>
              minimaxScore (board.setC i cp.as_char) (d₂ - 1) false cp hp := by
            apply List.map_congr_left
            intro i hi
            exact IH (n - 1) (by omega) _ _ _ _
              (hchild i hi cp.as_char (as_char_ne_space cp))
              (by omega) (by omega)
          rw [hmap]
      | false =>
          rw [minimaxScore_of_min board d₁ cp hp hterm₁,
            minimaxScore_of_min board d₂ cp hp hterm₂]
          have hmap : ((empties board).map fun i =>
              minimaxScore (board.setC i hp.as_char) (d₁ - 1) true cp hp) =
              (empties board).map fun i =>
              minimaxScore (board.setC i hp.as_char) (d₂ - 1) true cp hp := by
            apply List.map_congr_left
            intro i hi
            exact IH (n - 1) (by omega) _ _ _ _
              (hchild i hi hp.as_char (as_char_ne_space hp))
              (by omega) (by omega)
          rw [hmap]

/-! Characterization of the move-selection loop. -/

/-- One step of the selection scan, as a pure fold over the untouched board:
`sc i` is the score of tentatively playing at `i`. -/
def selStepG (board : Board) (sc : Nat → Int) (acc : Int × Option Nat)
    (i : Nat) : Int × Option Nat :=
  if board.get i == ' ' then
    if sc i > acc.1 then (sc i, some i) else acc
  else acc

theorem ctmLoop_eq (cp hp : Player) :
    ∀ (l : List Nat) (board : Board) (bs : Int) (bm : Option Nat),
      ctmLoop cp hp l board bs bm =
        (board, l.foldl
          (selStepG board fun i =>
            minimaxScore (board.setC i cp.as_char) 9 false cp hp)
          (bs, bm)) := by
  intro l
  induction l with
  | nil => intro board bs bm; rfl
  | cons i rest ih =>
      intro board bs bm
      rw [List.foldl_cons]
      by_cases hsp : board.get i = ' '
      · have hcond : (board.get i == ' ') = true := by simpa using hsp
        simp only [ctmLoop, hcond, if_true, minimax_pair, selStepG]
        rw [setC_setC_space board i cp.as_char hsp]
        by_cases hgt :
          minimaxScore (board.setC i cp.as_char) 9 false cp hp > bs
        · rw [if_pos hgt, if_pos hgt]
          exact ih board _ _
        · rw [if_neg hgt, if_neg hgt]
          exact ih board _ _
      · have hcond : (board.get i == ' ') = false := by simpa using hsp
        simp only [ctmLoop, hcond, Bool.false_eq_true, if_false, selStepG]
        exact ih board _ _

theorem selFold_spec (board : Board) (sc : Nat → Int)
    (hsc : ∀ j, -1 ≤ sc j) :
    ∀ (l : List Nat) (bs : Int) (bm : Option Nat),
      List.Pairwise (· < ·) l →
      (bm = none → bs = i32_min) →
      (∀ j, bm = some j → sc j = bs ∧ board.get j = ' ') →
      (∀ j, bm = some j → ∀ k ∈ l, j < k) →
      ∀ r, r = l.foldl (selStepG board sc) (bs, bm) →
      (∀ j, r.2 = some j → sc j = r.1 ∧ board.get j = ' ') ∧
      (r.2 = none → r.1 = bs ∧ bm = none ∧ ∀ k ∈ l, board.get k ≠ ' ') ∧
      (∀ j, r.2 = some j →
        (j ∈ l ∧ ∀ k ∈ l, k < j → board.get k = ' ' → sc k < sc j) ∨
        (bm = some j ∧ ∀ k ∈ l, board.get k = ' ' → sc k ≤ bs)) ∧
      (∀ j, r.2 = some j → bm = some j ∨ (j ∈ l ∧ bs < sc j)) := by
  have hmin : i32_min < -1 := by norm_num [i32_min]
  intro l
  induction l with
  | nil =>
      intro bs bm _ h1 h2 _ r hr
      subst hr
      refine ⟨fun j hj => h2 j hj, fun hn => ⟨rfl, hn, by simp⟩,
        fun j hj => Or.inr ⟨hj, by simp⟩, fun j hj => Or.inl hj⟩
  | cons i rest ih =>
      intro bs bm hpw h1 h2 h3 r hr
      obtain ⟨hlt, hpw'⟩ := List.pairwise_cons.mp hpw
      rw [List.foldl_cons] at hr
      by_cases hsp : board.get i = ' '
      · have hcond : (board.get i == ' ') = true := by simpa using hsp
        by_cases hgt : sc i > bs
        · have hstep : selStepG board sc (bs, bm) i = (sc i, some i) := by
            simp only [selStepG, hcond, if_true]
            rw [if_pos hgt]
          rw [hstep] at hr
          obtain ⟨c1, c2, c3, c4⟩ := ih (sc i) (some i) hpw'
            (by intro h; exact absurd h (by simp))
            (by intro j hj; injection hj with hij; subst hij
                exact ⟨rfl, hsp⟩)
            (by intro j hj k hk; injection hj with hij; subst hij
                exact hlt k hk)
            r hr
          refine ⟨c1, ?_, ?_, ?_⟩
          · intro hn
            obtain ⟨_, habs, _⟩ := c2 hn
            exact absurd habs (by simp)
          · intro j hj
            rcases c3 j hj with ⟨hjrest, hfm⟩ | ⟨hbm', _⟩
            · refine Or.inl ⟨List.mem_cons_of_mem i hjrest, ?_⟩
              intro k hk hkj hke
              rcases List.mem_cons.mp hk with hki | hkrest
              · rw [hki]
                rcases c4 j hj with hbm' | ⟨_, hbs'⟩
                · injection hbm' with hij
                  have h5 := hlt j hjrest
                  omega
                · exact hbs'
              · exact hfm k hkrest hkj hke
            · injection hbm' with hij
              refine Or.inl ⟨?_, ?_⟩
              · rw [← hij]; exact List.mem_cons_self i rest
              · intro k hk hkj _
                rcases List.mem_cons.mp hk with hki | hkrest
                · omega
                · have h5 := hlt k hkrest; omega
          · intro j hj
            rcases c4 j hj with hbm' | ⟨hjrest, hbs'⟩
            · injection hbm' with hij
              refine Or.inr ⟨?_, ?_⟩
              · rw [← hij]; exact List.mem_cons_self i rest
              · rw [← hij]; exact hgt
            · exact Or.inr ⟨List.mem_cons_of_mem i hjrest, by omega⟩
        · have hstep : selStepG board sc (bs, bm) i = (bs, bm) := by
            simp only [selStepG, hcond, if_true]
            rw [if_neg hgt]
          rw [hstep] at hr
          obtain ⟨c1, c2, c3, c4⟩ := ih bs bm hpw' h1 h2
            (fun j hj k hk => h3 j hj k (List.mem_cons_of_mem i hk)) r hr
          refine ⟨c1, ?_, ?_, ?_⟩
          · intro hn
            obtain ⟨hr1, hbm, _⟩ := c2 hn
            have : bs = i32_min := h1 hbm
            have := hsc i
            omega
          · intro j hj
            rcases c3 j hj with ⟨hjrest, hfm⟩ | ⟨hbm, hall⟩
            · refine Or.inl ⟨List.mem_cons_of_mem i hjrest, ?_⟩
              intro k hk hkj hke
              rcases List.mem_cons.mp hk with hki | hkrest
              · rw [hki]
                rcases c4 j hj with hbm' | ⟨_, hbs'⟩
                · have h5 := h3 j hbm' j (List.mem_cons_of_mem i hjrest)
                  omega
                · omega
              · exact hfm k hkrest hkj hke
            · refine Or.inr ⟨hbm, ?_⟩
              intro k hk hke
              rcases List.mem_cons.mp hk with hki | hkrest
              · subst hki; omega
              · exact hall k hkrest hke
          · intro j hj
            rcases c4 j hj with hbm' | ⟨hjrest, hbs'⟩
            · exact Or.inl hbm'
            · exact Or.inr ⟨List.mem_cons_of_mem i hjrest, hbs'⟩
      · have hcond : (board.get i == ' ') = false := by simpa using hsp
        have hstep : selStepG board sc (bs, bm) i = (bs, bm) := by
          simp only [selStepG, hcond, Bool.false_eq_true, if_false]
        rw [hstep] at hr
        obtain ⟨c1, c2, c3, c4⟩ := ih bs bm hpw' h1 h2
          (fun j hj k hk => h3 j hj k (List.mem_cons_of_mem i hk)) r hr
        refine ⟨c1, ?_, ?_, ?_⟩
        · intro hn
          obtain ⟨hr1, hbm, hrest⟩ := c2 hn
          refine ⟨hr1, hbm, ?_⟩
          intro k hk
          rcases List.mem_cons.mp hk with hki | hkrest
          · subst hki; exact hsp
          · exact hrest k hkrest
        · intro j hj
          rcases c3 j hj with ⟨hjrest, hfm⟩ | ⟨hbm, hall⟩
          · refine Or.inl ⟨List.mem_cons_of_mem i hjrest, ?_⟩
            intro k hk hkj hke
            rcases List.mem_cons.mp hk with hki | hkrest
            · subst hki; exact absurd hke hsp
            · exact hfm k hkrest hkj hke
          · refine Or.inr ⟨hbm, ?_⟩
            intro k hk hke
            rcases List.mem_cons.mp hk with hki | hkrest
            · subst hki; exact absurd hke hsp
            · exact hall k hkrest hke
        · intro j hj
          rcases c4 j hj with hbm' | ⟨hjrest, hbs'⟩
          · exact Or.inl hbm'
          · exact Or.inr ⟨List.mem_cons_of_mem i hjrest, hbs'⟩

theorem selFold_fst_mono (board : Board) (sc : Nat → Int) :
    ∀ (l : List Nat) (bs : Int) (bm : Option Nat),
      bs ≤ (l.foldl (selStepG board sc) (bs, bm)).1 := by
  intro l
  induction l with
  | nil => intro bs bm; exact le_refl bs
  | cons i rest ih =>
      intro bs bm
      rw [List.foldl_cons]
      have hstep : bs ≤ (selStepG board sc (bs, bm) i).1 := by
        unfold selStepG
        split_ifs <;> simp
        omega
      calc bs ≤ (selStepG board sc (bs, bm) i).1 := hstep
        _ ≤ _ := by
          rcases hacc : selStepG board sc (bs, bm) i with ⟨bs', bm'⟩
          exact ih bs' bm'

theorem selFold_fst_ge (board : Board) (sc : Nat → Int) :
    ∀ (l : List Nat) (bs : Int) (bm : Option Nat) (j : Nat),
      j ∈ l → board.get j = ' ' →
      sc j ≤ (l.foldl (selStepG board sc) (bs, bm)).1 := by
  intro l
  induction l with
  | nil => intro bs bm j hj; exact absurd hj (List.not_mem_nil j)
  | cons i rest ih =>
      intro bs bm j hj hje
      rw [List.foldl_cons]
      rcases List.mem_cons.mp hj with hji | hjrest
      · have hcond : (board.get i == ' ') = true := by
          rw [← hji]; simpa using hje
        have hstep : sc j ≤ (selStepG board sc (bs, bm) i).1 := by
          rw [hji]
          unfold selStepG
          rw [hcond, if_pos rfl]
          split_ifs <;> simp
          omega
        calc sc j ≤ (selStepG board sc (bs, bm) i).1 := hstep
          _ ≤ _ := by
            rcases hacc : selStepG board sc (bs, bm) i with ⟨bs', bm'⟩
            exact selFold_fst_mono board sc rest bs' bm'
      · rcases hacc : selStepG board sc (bs, bm) i with ⟨bs', bm'⟩
        exact ih bs' bm' j hjrest hje

theorem computer_turn_eq (board : Board) (cp hp : Player) :
    computer_turn_minimax board cp hp =
      match ((List.range board.len).foldl
        (selStepG board fun i =>
          minimaxScore (board.setC i cp.as_char) 9 false cp hp)
        (i32_min, none)).2 with
      | some mi => board.setC mi cp.as_char
      | none => board := by
  unfold computer_turn_minimax
  rw [ctmLoop_eq]

/-- Selector correctness: on a board with at least one empty cell the
selector commits the computer's mark at the unique first empty cell whose
tentative score is maximal. -/
theorem computer_turn_spec (board : Board) (cp hp : Player)
    (hne : ∃ i, i < board.len ∧ board.get i = ' ') :
    ∃ best, best < board.len ∧ board.get best = ' ' ∧
      computer_turn_minimax board cp hp = board.setC best cp.as_char ∧
      (∀ j, j < board.len → board.get j = ' ' →
        minimaxScore (board.setC j cp.as_char) 9 false cp hp ≤
          minimaxScore (board.setC best cp.as_char) 9 false cp hp) ∧
      ∀ j, j < best → board.get j = ' ' →
        minimaxScore (board.setC j cp.as_char) 9 false cp hp <
          minimaxScore (board.setC best cp.as_char) 9 false cp hp := by
  have hsc : ∀ j, -1 ≤ minimaxScore (board.setC j cp.as_char) 9 false cp hp :=
    fun j => (minimaxScore_range _ 9 false cp hp).1
  obtain ⟨c1, c2, c3, c4⟩ := selFold_spec board
    (fun i => minimaxScore (board.setC i cp.as_char) 9 false cp hp) hsc
    (List.range board.len) i32_min none (List.pairwise_lt_range _)
    (fun _ => rfl)
    (by intro j hj; exact absurd hj (by simp))
    (by intro j hj; exact absurd hj (by simp))
    _ rfl
  cases hr2 : ((List.range board.len).foldl
      (selStepG board fun i =>
        minimaxScore (board.setC i cp.as_char) 9 false cp hp)
      (i32_min, none)).2 with
  | none =>
      obtain ⟨_, _, hall⟩ := c2 hr2
      obtain ⟨i, hi, hie⟩ := hne
      exact absurd hie (hall i (List.mem_range.mpr hi))
  | some best =>
      obtain ⟨hscbest, hbeste⟩ := c1 best hr2
      rcases c3 best hr2 with ⟨hbmem, hfm⟩ | ⟨habs, _⟩
      · refine ⟨best, List.mem_range.mp hbmem, hbeste, ?_, ?_, ?_⟩
        · rw [computer_turn_eq board cp hp, hr2]
        · intro j hj hje
          calc minimaxScore (board.setC j cp.as_char) 9 false cp hp
              ≤ _ := selFold_fst_ge board _ (List.range board.len)
                i32_min none j (List.mem_range.mpr hj) hje
            _ = minimaxScore (board.setC best cp.as_char) 9 false cp hp :=
                hscbest.symm
        · intro j hj hje
          exact hfm j (List.mem_range.mpr
            (lt_trans hj (List.mem_range.mp hbmem))) hj hje
      · exact absurd habs (by simp)

/-- On a full board the selector leaves the board unchanged. -/
theorem computer_turn_of_full (board : Board) (cp hp : Player)
    (hfull : ∀ i, i < board.len → board.get i ≠ ' ') :
    computer_turn_minimax board cp hp = board := by
  have hsc : ∀ j, -1 ≤ minimaxScore (board.setC j cp.as_char) 9 false cp hp :=
    fun j => (minimaxScore_range _ 9 false cp hp).1
  obtain ⟨c1, c2, c3, c4⟩ := selFold_spec board
    (fun i => minimaxScore (board.setC i cp.as_char) 9 false cp hp) hsc
    (List.range board.len) i32_min none (List.pairwise_lt_range _)
    (fun _ => rfl)
    (by intro j hj; exact absurd hj (by simp))
    (by intro j hj; exact absurd hj (by simp))
    _ rfl
  cases hr2 : ((List.range board.len).foldl
      (selStepG board fun i =>
        minimaxScore (board.setC i cp.as_char) 9 false cp hp)
      (i32_min, none)).2 with
  | none => rw [computer_turn_eq board cp hp, hr2]
  | some best =>
      obtain ⟨_, hbeste⟩ := c1 best hr2
      rcases c3 best hr2 with ⟨hbmem, _⟩ | ⟨habs, _⟩
      · exact absurd hbeste (hfull best (List.mem_range.mp hbmem))
      · exact absurd habs (by simp)

/-- Soundness of the strategy certificate checker: a checked certificate
witnesses that the game value of the position (to move, maximizing) is
non-negative, i.e. the side to move cannot be forced to lose. -/
theorem stratCheck_sound (cp hp : Player) :
    ∀ (fuel : Nat) (st : Strat) (board : Board),
      stratCheck cp hp fuel st board = true →
      0 ≤ minimaxScore board (countEmpty board : Int) true cp hp := by
  intro fuel
  induction fuel with
  | zero =>
      intro st board h
      exact absurd h (by simp [stratCheck])
  | succ F ih =>
      intro st board h
      cases st with
      | node mv replies =>
      simp only [stratCheck] at h
      by_cases hterm0 : evaluate_board board cp hp ≠ 0 ∨
        is_board_full board = true
      · rw [if_pos hterm0] at h
        have h0 : (0 : Int) ≤ evaluate_board board cp hp := of_decide_eq_true h
        have hterm : evaluate_board board cp hp ≠ 0 ∨
            ((countEmpty board : Nat) : Int) = 0 ∨ is_board_full board = true := by
          rcases hterm0 with h1 | h1
          · exact Or.inl h1
          · exact Or.inr (Or.inr h1)
        rw [minimaxScore_terminal board _ true cp hp hterm]
        exact h0
      · rw [if_neg hterm0] at h
        push_neg at hterm0
        obtain ⟨hsc0, hnf⟩ := hterm0
        have hnf' : is_board_full board = false := by
          simpa using hnf
        have hce : 1 ≤ countEmpty board := by
          rcases Nat.eq_zero_or_pos (countEmpty board) with hz | hz
          · exact absurd ((countEmpty_eq_zero_iff board).mp hz) (by simp [hnf'])
          · exact hz
        by_cases hmv : mv < board.len ∧ board.get mv = ' '
        · rw [if_pos hmv] at h
          obtain ⟨hmvlen, hmvsp⟩ := hmv
          have hterm' : ¬(evaluate_board board cp hp ≠ 0 ∨
              ((countEmpty board : Nat) : Int) = 0 ∨
              is_board_full board = true) := by
            push_neg
            refine ⟨hsc0, by exact_mod_cast Nat.one_le_iff_ne_zero.mp hce,
              by simp [hnf']⟩
          rw [minimaxScore_of_max board _ cp hp hterm']
          have hmvmem : mv ∈ empties board :=
            (mem_empties board mv).mpr ⟨hmvlen, hmvsp⟩
          have hmapmem :
              minimaxScore (board.setC mv cp.as_char)
                (((countEmpty board : Nat) : Int) - 1) false cp hp ∈
              (empties board).map fun i =>
                minimaxScore (board.setC i cp.as_char)
                  (((countEmpty board : Nat) : Int) - 1) false cp hp :=
            List.mem_map_of_mem _ hmvmem
          refine le_trans ?_ (foldl_max_ge_mem _ _ hmapmem i32_min)
          -- value of the certified move is non-negative
          have hcc := countEmpty_setC board mv cp.as_char hmvlen hmvsp
            (as_char_ne_space cp)
          have hcast : ((countEmpty board : Nat) : Int) - 1 =
              ((countEmpty (board.setC mv cp.as_char) : Nat) : Int) := by
            omega
          rw [hcast]
          by_cases hterm2 : evaluate_board (board.setC mv cp.as_char) cp hp ≠ 0 ∨
            is_board_full (board.setC mv cp.as_char) = true
          · rw [if_pos hterm2] at h
            have h0 : (0 : Int) ≤
                evaluate_board (board.setC mv cp.as_char) cp hp :=
              of_decide_eq_true h
            have hterm2' : evaluate_board (board.setC mv cp.as_char) cp hp ≠ 0 ∨
                ((countEmpty (board.setC mv cp.as_char) : Nat) : Int) = 0 ∨
                is_board_full (board.setC mv cp.as_char) = true := by
              rcases hterm2 with h1 | h1
              · exact Or.inl h1
              · exact Or.inr (Or.inr h1)
            rw [minimaxScore_terminal _ _ false cp hp hterm2']
            exact h0
          · rw [if_neg hterm2] at h
            push_neg at hterm2
            obtain ⟨hsc2, hnf2⟩ := hterm2
            have hnf2' : is_board_full (board.setC mv cp.as_char) = false := by
              simpa using hnf2
            have hce2 : 1 ≤ countEmpty (board.setC mv cp.as_char) := by
              rcases Nat.eq_zero_or_pos
                (countEmpty (board.setC mv cp.as_char)) with hz | hz
              · exact absurd ((countEmpty_eq_zero_iff _).mp hz)
                  (by simp [hnf2'])
              · exact hz
            have hterm2' : ¬(evaluate_board (board.setC mv cp.as_char) cp hp ≠ 0 ∨
                ((countEmpty (board.setC mv cp.as_char) : Nat) : Int) = 0 ∨
                is_board_full (board.setC mv cp.as_char) = true) := by
              push_neg
              refine ⟨hsc2, by exact_mod_cast Nat.one_le_iff_ne_zero.mp hce2,
                by simp [hnf2']⟩
            rw [minimaxScore_of_min _ _ cp hp hterm2']
            refine foldl_min_ge _ 0 ?_ i32_max (by norm_num [i32_max])
            intro x hx
            obtain ⟨j, hj, hjx⟩ := List.mem_map.mp hx
            obtain ⟨hjlen, hjsp⟩ :=
              (mem_empties (board.setC mv cp.as_char) j).mp hj
            rw [List.all_eq_true] at h
            have hall := h j (List.mem_range.mpr (by
              rw [len_setC] at hjlen ⊢
              exact hjlen))
            have hjcond : ((board.setC mv cp.as_char).get j == ' ') = true := by
              simpa using hjsp
            rw [hjcond] at hall
            simp only [Bool.not_true, Bool.false_or] at hall
            subst hjx
            cases hlk : lookupStrat replies j with
            | none =>
                rw [hlk] at hall
                exact absurd hall (by simp)
            | some s =>
                rw [hlk] at hall
                have hrec := ih s
                  ((board.setC mv cp.as_char).setC j hp.as_char) hall
                have hcc2 := countEmpty_setC (board.setC mv cp.as_char) j
                  hp.as_char hjlen hjsp (as_char_ne_space hp)
                have hcast2 :
                    ((countEmpty (board.setC mv cp.as_char) : Nat) : Int) - 1 =
                    ((countEmpty ((board.setC mv cp.as_char).setC j
                      hp.as_char) : Nat) : Int) := by
                  omega
                rw [hcast2]
                exact hrec
        · rw [if_neg hmv] at h
          exact absurd h (by simp)

/-- A concrete non-losing strategy certificate for the first player X
against O, produced from the game tree and checked by `stratCheck`. -/
def stratXO : Strat :=
  Strat.node 0 [(1, Strat.node 3 [(2, Strat.node 4 [(5, Strat.node 6 []), (6, Strat.node 5 []), (7, Strat.node 5 []), (8, Strat.node 5 [])]), (4, Strat.node 6 []), (5, Strat.node 4 [(2, Strat.node 6 []), (6, Strat.node 8 []), (7, Strat.node 2 [(6, Strat.node 8 []), (8, Strat.node 6 [])]), (8, Strat.node 6 [])]), (6, Strat.node 4 [(2, Strat.node 5 []), (5, Strat.node 8 []), (7, Strat.node 5 []), (8, Strat.node 5 [])]), (7, Strat.node 4 [(2, Strat.node 5 []), (5, Strat.node 2 [(6, Strat.node 8 []), (8, Strat.node 6 [])]), (6, Strat.node 5 []), (8, Strat.node 5 [])]), (8, Strat.node 4 [(2, Strat.node 5 []), (5, Strat.node 6 []), (6, Strat.node 5 []), (7, Strat.node 5 [])])]), (2, Strat.node 3 [(1, Strat.node 4 [(5, Strat.node 6 []), (6, Strat.node 5 []), (7, Strat.node 5 []), (8, Strat.node 5 [])]), (4, Strat.node 6 []), (5, Strat.node 6 []), (6, Strat.node 4 [(1, Strat.node 5 []), (5, Strat.node 8 []), (7, Strat.node 5 []), (8, Strat.node 5 [])]), (7, Strat.node 4 [(1, Strat.node 5 []), (5, Strat.node 6 []), (6, Strat.node 5 []), (8, Strat.node 5 [])]), (8, Strat.node 5 [(1, Strat.node 4 []), (4, Strat.node 6 []), (6, Strat.node 4 []), (7, Strat.node 4 [])])]), (3, Strat.node 1 [(2, Strat.node 4 [(5, Strat.node 7 []), (6, Strat.node 5 [(7, Strat.node 8 []), (8, Strat.node 7 [])]), (7, Strat.node 8 []), (8, Strat.node 7 [])]), (4, Strat.node 2 []), (5, Strat.node 2 []), (6, Strat.node 2 []), (7, Strat.node 2 []), (8, Strat.node 2 [])]), (4, Strat.node 1 [(2, Strat.node 6 [(3, Strat.node 5 [(7, Strat.node 8 []), (8, Strat.node 7 [])]), (5, Strat.node 3 []), (7, Strat.node 3 []), (8, Strat.node 3 [])]), (3, Strat.node 2 []), (5, Strat.node 2 []), (6, Strat.node 2 []), (7, Strat.node 2 []), (8, Strat.node 2 [])]), (5, Strat.node 2 [(1, Strat.node 4 [(3, Strat.node 6 []), (6, Strat.node 8 []), (7, Strat.node 3 [(6, Strat.node 8 []), (8, Strat.node 6 [])]), (8, Strat.node 6 [])]), (3, Strat.node 1 []), (4, Strat.node 1 []), (6, Strat.node 1 []), (7, Strat.node 1 []), (8, Strat.node 1 [])]), (6, Strat.node 1 [(2, Strat.node 4 [(3, Strat.node 5 [(7, Strat.node 8 []), (8, Strat.node 7 [])]), (5, Strat.node 7 []), (7, Strat.node 8 []), (8, Strat.node 7 [])]), (3, Strat.node 2 []), (4, Strat.node 2 []), (5, Strat.node 2 []), (7, Strat.node 2 []), (8, Strat.node 2 [])]), (7, Strat.node 2 [(1, Strat.node 4 [(3, Strat.node 5 [(6, Strat.node 8 []), (8, Strat.node 6 [])]), (5, Strat.node 3 [(6, Strat.node 8 []), (8, Strat.node 6 [])]), (6, Strat.node 8 []), (8, Strat.node 6 [])]), (3, Strat.node 1 []), (4, Strat.node 1 []), (5, Strat.node 1 []), (6, Strat.node 1 []), (8, Strat.node 1 [])]), (8, Strat.node 2 [(1, Strat.node 6 [(3, Strat.node 4 []), (4, Strat.node 3 []), (5, Strat.node 3 []), (7, Strat.node 3 [])]), (3, Strat.node 1 []), (4, Strat.node 1 []), (5, Strat.node 1 []), (6, Strat.node 1 []), (7, Strat.node 1 [])])]

/-- A concrete non-losing strategy certificate for the first player O
against X, produced from the game tree and checked by `stratCheck`. -/
def stratOX : Strat :=
  Strat.node 0 [(1, Strat.node 3 [(2, Strat.node 4 [(5, Strat.node 6 []), (6, Strat.node 5 []), (7, Strat.node 5 []), (8, Strat.node 5 [])]), (4, Strat.node 6 []), (5, Strat.node 4 [(2, Strat.node 6 []), (6, Strat.node 8 []), (7, Strat.node 2 [(6, Strat.node 8 []), (8, Strat.node 6 [])]), (8, Strat.node 6 [])]), (6, Strat.node 4 [(2, Strat.node 5 []), (5, Strat.node 8 []), (7, Strat.node 5 []), (8, Strat.node 5 [])]), (7, Strat.node 4 [(2, Strat.node 5 []), (5, Strat.node 2 [(6, Strat.node 8 []), (8, Strat.node 6 [])]), (6, Strat.node 5 []), (8, Strat.node 5 [])]), (8, Strat.node 4 [(2, Strat.node 5 []), (5, Strat.node 6 []), (6, Strat.node 5 []), (7, Strat.node 5 [])])]), (2, Strat.node 3 [(1, Strat.node 4 [(5, Strat.node 6 []), (6, Strat.node 5 []), (7, Strat.node 5 []), (8, Strat.node 5 [])]), (4, Strat.node 6 []), (5, Strat.node 6 []), (6, Strat.node 4 [(1, Strat.node 5 []), (5, Strat.node 8 []), (7, Strat.node 5 []), (8, Strat.node 5 [])]), (7, Strat.node 4 [(1, Strat.node 5 []), (5, Strat.node 6 []), (6, Strat.node 5 []), (8, Strat.node 5 [])]), (8, Strat.node 5 [(1, Strat.node 4 []), (4, Strat.node 6 []), (6, Strat.node 4 []), (7, Strat.node 4 [])])]), (3, Strat.node 1 [(2, Strat.node 4 [(5, Strat.node 7 []), (6, Strat.node 5 [(7, Strat.node 8 []), (8, Strat.node 7 [])]), (7, Strat.node 8 []), (8, Strat.node 7 [])]), (4, Strat.node 2 []), (5, Strat.node 2 []), (6, Strat.node 2 []), (7, Strat.node 2 []), (8, Strat.node 2 [])]), (4, Strat.node 1 [(2, Strat.node 6 [(3, Strat.node 5 [(7, Strat.node 8 []), (8, Strat.node 7 [])]), (5, Strat.node 3 []), (7, Strat.node 3 []), (8, Strat.node 3 [])]), (3, Strat.node 2 []), (5, Strat.node 2 []), (6, Strat.node 2 []), (7, Strat.node 2 []), (8, Strat.node 2 [])]), (5, Strat.node 2 [(1, Strat.node 4 [(3, Strat.node 6 []), (6, Strat.node 8 []), (7, Strat.node 3 [(6, Strat.node 8 []), (8, Strat.node 6 [])]), (8, Strat.node 6 [])]), (3, Strat.node 1 []), (4, Strat.node 1 []), (6, Strat.node 1 []), (7, Strat.node 1 []), (8, Strat.node 1 [])]), (6, Strat.node 1 [(2, Strat.node 4 [(3, Strat.node 5 [(7, Strat.node 8 []), (8, Strat.node 7 [])]), (5, Strat.node 7 []), (7, Strat.node 8 []), (8, Strat.node 7 [])]), (3, Strat.node 2 []), (4, Strat.node 2 []), (5, Strat.node 2 []), (7, Strat.node 2 []), (8, Strat.node 2 [])]), (7, Strat.node 2 [(1, Strat.node 4 [(3, Strat.node 5 [(6, Strat.node 8 []), (8, Strat.node 6 [])]), (5, Strat.node 3 [(6, Strat.node 8 []), (8, Strat.node 6 [])]), (6, Strat.node 8 []), (8, Strat.node 6 [])]), (3, Strat.node 1 []), (4, Strat.node 1 []), (5, Strat.node 1 []), (6, Strat.node 1 []), (8, Strat.node 1 [])]), (8, Strat.node 2 [(1, Strat.node 6 [(3, Strat.node 4 []), (4, Strat.node 3 []), (5, Strat.node 3 []), (7, Strat.node 3 [])]), (3, Strat.node 1 []), (4, Strat.node 1 []), (5, Strat.node 1 []), (6, Strat.node 1 []), (7, Strat.node 1 [])])]

theorem toggle_ne (p : Player) : p.toggle ≠ p := by
  cases p <;> decide

theorem evaluate_of_winner_none (b : Board) (cp hp : Player)
    (hw : check_winner b = none) : evaluate_board b cp hp = 0 := by
  simp [evaluate_board, hw]

theorem evaluate_of_winner_hp (b : Board) (cp hp : Player)
    (hw : check_winner b = some hp) (hne : hp ≠ cp) :
    evaluate_board b cp hp = -1 := by
  simp [evaluate_board, hw, hne]

/-- The game invariant: in every position reachable with the computer
playing `computer_turn_minimax` from the empty board (moving first), the
board is of size 9, the human has not won, and the side-to-move value of the
position is non-negative for the computer. -/
theorem gamePos_inv (cp : Player) (b : Board) (t : Bool)
    (hg : GamePos cp cp.toggle b t) :
    b.len = 9 ∧ check_winner b ≠ some cp.toggle ∧
      0 ≤ minimaxScore b (countEmpty b : Int) t cp cp.toggle := by
  induction hg with
  | init =>
      refine ⟨rfl, by cases cp <;> decide, ?_⟩
      cases cp with
      | X =>
          exact stratCheck_sound Player.X Player.O 9 stratXO emptyBoard
            (by decide!)
      | O =>
          exact stratCheck_sound Player.O Player.X 9 stratOX emptyBoard
            (by decide!)
  | cmove hgp hwin hnful ih =>
      rename_i b0
      obtain ⟨hlen, hwnot, hval⟩ := ih
      have hev : evaluate_board b0 cp cp.toggle = 0 :=
        evaluate_of_winner_none b0 cp cp.toggle hwin
      have hne := not_full_exists_empty b0 hnful
      obtain ⟨best, hblen, hbsp, hbeq, hdom, hfirst⟩ :=
        computer_turn_spec b0 cp cp.toggle hne
      have hce : 1 ≤ countEmpty b0 := by
        rcases Nat.eq_zero_or_pos (countEmpty b0) with hz | hz
        · exact absurd ((countEmpty_eq_zero_iff b0).mp hz) (by simp [hnful])
        · exact hz
      have hterm : ¬(evaluate_board b0 cp cp.toggle ≠ 0 ∨
          ((countEmpty b0 : Nat) : Int) = 0 ∨ is_board_full b0 = true) := by
        push_neg
        refine ⟨by simp [hev], by exact_mod_cast Nat.one_le_iff_ne_zero.mp hce,
          by simp [hnful]⟩
      rw [minimaxScore_of_max b0 _ cp cp.toggle hterm] at hval
      have hccb := countEmpty_setC b0 best cp.as_char hblen hbsp
        (as_char_ne_space cp)
      have hsb9 : (countEmpty (b0.setC best cp.as_char) : Int) ≤ 9 := by
        have h1 := countEmpty_le_len (b0.setC best cp.as_char)
        rw [len_setC, hlen] at h1
        exact_mod_cast h1
      have hsirr : ∀ j, j < b0.len → b0.get j = ' ' →
          minimaxScore (b0.setC j cp.as_char)
            (((countEmpty b0 : Nat) : Int) - 1) false cp cp.toggle =
          minimaxScore (b0.setC j cp.as_char) 9 false cp cp.toggle := by
        intro j hjlen hjsp
        have hccj := countEmpty_setC b0 j cp.as_char hjlen hjsp
          (as_char_ne_space cp)
        have hj9 : (countEmpty (b0.setC j cp.as_char) : Int) ≤ 9 := by
          have h1 := countEmpty_le_len (b0.setC j cp.as_char)
          rw [len_setC, hlen] at h1
          exact_mod_cast h1
        exact minimaxScore_depth_irrel cp cp.toggle
          (countEmpty (b0.setC j cp.as_char)) (b0.setC j cp.as_char) false
          _ 9 rfl (by omega) (by omega)
      have hbest0 : 0 ≤ minimaxScore (b0.setC best cp.as_char) 9 false
          cp cp.toggle := by
        have helem : ∀ x ∈ (empties b0).map fun i =>
            minimaxScore (b0.setC i cp.as_char)
              (((countEmpty b0 : Nat) : Int) - 1) false cp cp.toggle,
            x ≤ minimaxScore (b0.setC best cp.as_char) 9 false cp cp.toggle := by
          intro x hx
          obtain ⟨j, hj, hjx⟩ := List.mem_map.mp hx
          obtain ⟨hjlen, hjsp⟩ := (mem_empties b0 j).mp hj
          rw [← hjx, hsirr j hjlen hjsp]
          exact hdom j hjlen hjsp
        have hlb : i32_min ≤ minimaxScore (b0.setC best cp.as_char) 9 false
            cp cp.toggle := by
          have h1 := (minimaxScore_range (b0.setC best cp.as_char) 9 false
            cp cp.toggle).1
          have h2 : i32_min < -1 := by norm_num [i32_min]
          omega
        have hub := foldl_max_le _ _ helem i32_min hlb
        omega
      have hvb' : 0 ≤ minimaxScore (b0.setC best cp.as_char)
          (countEmpty (b0.setC best cp.as_char) : Int) false cp cp.toggle := by
        rw [minimaxScore_depth_irrel cp cp.toggle
          (countEmpty (b0.setC best cp.as_char)) (b0.setC best cp.as_char)
          false _ 9 rfl (by omega) (by omega)]
        exact hbest0
      refine ⟨?_, ?_, ?_⟩
      · rw [hbeq, len_setC]
        exact hlen
      · intro hw
        have hev' : evaluate_board (computer_turn_minimax b0 cp cp.toggle)
            cp cp.toggle = -1 :=
          evaluate_of_winner_hp _ cp cp.toggle hw (toggle_ne cp)
        have := minimaxScore_terminal (computer_turn_minimax b0 cp cp.toggle)
          (countEmpty (computer_turn_minimax b0 cp cp.toggle) : Int) false
          cp cp.toggle (Or.inl (by rw [hev']; norm_num))
        rw [hbeq] at this hev'
        have h0 := hvb'
        rw [this] at h0
        rw [hev'] at h0
        norm_num at h0
      · rw [hbeq]
        exact hvb'
  | hmove hgp hwin hnful hilen hisp ih =>
      rename_i b0 i
      obtain ⟨hlen, hwnot, hval⟩ := ih
      have hev : evaluate_board b0 cp cp.toggle = 0 :=
        evaluate_of_winner_none b0 cp cp.toggle hwin
      have hce : 1 ≤ countEmpty b0 := by
        rcases Nat.eq_zero_or_pos (countEmpty b0) with hz | hz
        · exact absurd ((countEmpty_eq_zero_iff b0).mp hz) (by simp [hnful])
        · exact hz
      have hterm : ¬(evaluate_board b0 cp cp.toggle ≠ 0 ∨
          ((countEmpty b0 : Nat) : Int) = 0 ∨ is_board_full b0 = true) := by
        push_neg
        refine ⟨by simp [hev], by exact_mod_cast Nat.one_le_iff_ne_zero.mp hce,
          by simp [hnful]⟩
      rw [minimaxScore_of_min b0 _ cp cp.toggle hterm] at hval
      have hcci := countEmpty_setC b0 i cp.toggle.as_char hilen hisp
        (as_char_ne_space cp.toggle)
      have hximem :
          minimaxScore (b0.setC i cp.toggle.as_char)
            (((countEmpty b0 : Nat) : Int) - 1) true cp cp.toggle ∈
          (empties b0).map fun j =>
            minimaxScore (b0.setC j cp.toggle.as_char)
              (((countEmpty b0 : Nat) : Int) - 1) true cp cp.toggle :=
        List.mem_map_of_mem _ ((mem_empties b0 i).mpr ⟨hilen, hisp⟩)
      have hxi : 0 ≤ minimaxScore (b0.setC i cp.toggle.as_char)
          (((countEmpty b0 : Nat) : Int) - 1) true cp cp.toggle :=
        le_trans hval (foldl_min_le_mem _ _ hximem i32_max)
      have hcast : (((countEmpty b0 : Nat) : Int) - 1) =
          ((countEmpty (b0.setC i cp.toggle.as_char) : Nat) : Int) := by
        omega
      rw [hcast] at hxi
      refine ⟨?_, ?_, hxi⟩
      · rw [len_setC]
        exact hlen
      · intro hw
        have hev' : evaluate_board (b0.setC i cp.toggle.as_char)
            cp cp.toggle = -1 :=
          evaluate_of_winner_hp _ cp cp.toggle hw (toggle_ne cp)
        have hterm' := minimaxScore_terminal (b0.setC i cp.toggle.as_char)
          (countEmpty (b0.setC i cp.toggle.as_char) : Int) true
          cp cp.toggle (Or.inl (by rw [hev']; norm_num))
        rw [hterm', hev'] at hxi
        norm_num at hxi

theorem searchLoop_pres (recur : Board → Option (Board × Int)) (mark : Char)
    (agg : Int → Int → Int)
    (hpres : ∀ b p, recur b = some p → p.1 = b) :
    ∀ (l : List Nat) (board : Board) (best : Int) (p : Board × Int),
      searchLoop recur mark agg l board best = some p → p.1 = board := by
  intro l
  induction l with
  | nil =>
      intro board best p hp
      simp only [searchLoop] at hp
      cases hp
      rfl
  | cons i rest ih =>
      intro board best p hp
      by_cases hsp : board.get i = ' '
      · have hcond : (board.get i == ' ') = true := by simpa using hsp
        simp only [searchLoop, hcond, if_true] at hp
        cases hrec : recur (board.setC i mark) with
        | none => rw [hrec] at hp; cases hp
        | some q =>
            rw [hrec] at hp
            have hq : q.1 = board.setC i mark := hpres _ q hrec
            rcases q with ⟨qb, qs⟩
            simp only at hp
            have := ih (qb.setC i ' ') (agg best qs) p hp
            rw [this]
            simp only at hq
            rw [hq]
            exact setC_setC_space board i mark hsp
      · have hcond : (board.get i == ' ') = false := by simpa using hsp
        simp only [searchLoop, hcond, Bool.false_eq_true, if_false] at hp
        exact ih board best p hp

theorem minimaxF_pres :
    ∀ (fuel : Nat) (board : Board) (depth : Int) (m : Bool) (cp hp : Player)
      (p : Board × Int),
      minimaxF fuel board depth m cp hp = some p → p.1 = board := by
  intro fuel
  induction fuel with
  | zero => intro board depth m cp hp p h; cases h
  | succ F ih =>
      intro board depth m cp hp p h
      by_cases hterm : evaluate_board board cp hp ≠ 0 ∨ depth = 0 ∨
        is_board_full board = true
      · rw [minimaxF_succ_terminal F board depth m cp hp hterm] at h
        cases h
        rfl
      · cases m with
        | true =>
            rw [minimaxF_succ_max F board depth cp hp hterm] at h
            exact searchLoop_pres _ _ _ (fun b q hq => ih b _ _ _ _ q hq)
              _ board i32_min p h
        | false =>
            rw [minimaxF_succ_min F board depth cp hp hterm] at h
            exact searchLoop_pres _ _ _ (fun b q hq => ih b _ _ _ _ q hq)
              _ board i32_max p h

theorem full_no_empty (board : Board) (hful : is_board_full board = true) :
    ∀ i, i < board.len → board.get i ≠ ' ' := by
  intro i hi
  unfold is_board_full at hful
  rw [List.all_eq_true] at hful
  have hmem : board.get i ∈ board := by
    have : board.get i = board[i] := by
      show List.getD board i ' ' = board[i]
      exact List.getD_eq_getElem board ' ' hi
    rw [this]
    exact List.getElem_mem hi
  have := hful _ hmem
  simpa [bne] using this

/-! The claims. -/

/-- C1: for every board, depth, maximizing flag and complementary player
pair, a `minimax` call returns the board bit-identical to the input: every
tentative mark placed during the search, at any recursion depth and fuel, is
restored to empty before returning, including when the recursive result is
discarded by the max/min aggregation. -/
theorem board_restored_after_minimax (board : Board) (depth : Int) (m : Bool)
    (cp : Player) :
    (minimax board depth m cp cp.toggle).1 = board ∧
    ∀ (fuel : Nat) (p : Board × Int),
      minimaxF fuel board depth m cp cp.toggle = some p → p.1 = board :=
  ⟨minimax_fst board depth m cp cp.toggle,
    fun fuel p h => minimaxF_pres fuel board depth m cp cp.toggle p h⟩

/-- Witness for C1 at a concrete board with one empty cell. -/
theorem board_restored_after_minimax_witness :
    minimaxF 2 ['X', 'O', 'X', 'O', 'X', 'O', 'O', 'X', ' '] 9 true
        Player.X Player.O =
      some (['X', 'O', 'X', 'O', 'X', 'O', 'O', 'X', ' '], 1) ∧
    ((['X', 'O', 'X', 'O', 'X', 'O', 'O', 'X', ' '], (1 : Int)) :
      Board × Int).1 = ['X', 'O', 'X', 'O', 'X', 'O', 'O', 'X', ' '] :=
  ⟨by decide,
    (board_restored_after_minimax ['X', 'O', 'X', 'O', 'X', 'O', 'O', 'X', ' ']
      9 true Player.X).2 2 _ (by decide)⟩

/-- C3: `evaluate_board` returns +1 when the winner is the computer player,
−1 when the winner is the human player, and 0 otherwise, for every
complementary pair. -/
theorem evaluate_board_spec (board : Board) (cp : Player) :
    evaluate_board board cp cp.toggle =
      if check_winner board = some cp then 1
      else if check_winner board = some cp.toggle then -1
      else 0 := by
  unfold evaluate_board
  cases hw : check_winner board with
  | none => simp
  | some p =>
      by_cases hpc : p = cp
      · simp [hpc]
      · by_cases hph : p = cp.toggle
        · simp [hpc, hph]
        · simp [hpc, hph, Option.some_inj]

/-- C6: on the board X X _ / O O _ / _ _ _ with the computer playing X, the
selector commits X at index 2, completing the top row, and `check_winner`
then reports X. -/
theorem selector_takes_winning_move :
    computer_turn_minimax ['X', 'X', ' ', 'O', 'O', ' ', ' ', ' ', ' ']
        Player.X Player.O =
      ['X', 'X', 'X', 'O', 'O', ' ', ' ', ' ', ' '] ∧
    check_winner ['X', 'X', 'X', 'O', 'O', ' ', ' ', ' ', ' '] =
      some Player.X :=
  ⟨by decide, by decide⟩

/-- C7: with fuel exceeding the number of empty cells — the Rust recursion
consumes one empty cell per level — the fuelled search always returns a
result, and the result does not depend on the fuel: the recursion
terminates on every board, depth and flag. -/
theorem minimax_terminates (board : Board) (depth : Int) (m : Bool)
    (cp : Player) (fuel : Nat) (hfuel : countEmpty board < fuel) :
    (minimaxF fuel board depth m cp cp.toggle).isSome = true ∧
    minimaxF fuel board depth m cp cp.toggle =
      minimaxF (countEmpty board + 1) board depth m cp cp.toggle := by
  constructor
  · rw [minimaxF_spec fuel board depth m cp cp.toggle hfuel]
    rfl
  · rw [minimaxF_spec fuel board depth m cp cp.toggle hfuel,
      minimaxF_spec (countEmpty board + 1) board depth m cp cp.toggle
        (Nat.lt_succ_self _)]

/-- Witness for C7 at a concrete board with one empty cell and fuel 2. -/
theorem minimax_terminates_witness :
    countEmpty ['X', 'O', 'X', 'O', 'X', 'O', 'O', 'X', ' '] < 2 ∧
    ((minimaxF 2 ['X', 'O', 'X', 'O', 'X', 'O', 'O', 'X', ' '] 9 true
        Player.X Player.O).isSome = true ∧
      minimaxF 2 ['X', 'O', 'X', 'O', 'X', 'O', 'O', 'X', ' '] 9 true
          Player.X Player.O =
        minimaxF (countEmpty ['X', 'O', 'X', 'O', 'X', 'O', 'O', 'X', ' '] + 1)
          ['X', 'O', 'X', 'O', 'X', 'O', 'O', 'X', ' '] 9 true
          Player.X Player.O) :=
  ⟨by decide,
    minimax_terminates ['X', 'O', 'X', 'O', 'X', 'O', 'O', 'X', ' '] 9 true
      Player.X 2 (by decide)⟩

/-- C9: `evaluate_board` is antisymmetric in the player labels: swapping the
computer and human labels negates the result. -/
theorem evaluate_board_antisymmetric (board : Board) (cp : Player) :
    evaluate_board board cp cp.toggle =
      -(evaluate_board board cp.toggle cp) := by
  unfold evaluate_board
  cases hw : check_winner board with
  | none => simp
  | some p => cases p <;> cases cp <;> simp [Player.toggle]

/-- C4: on a board with at least one empty cell the selector scans the empty
cells in index order, scores each by a depth-9 minimizing `minimax` call on
the tentatively marked board, and commits the computer's mark exactly once,
at the lowest-index empty cell attaining the maximal score: a later cell
with an equal score never replaces the stored best move. -/
theorem selector_commits_first_best (board : Board) (cp : Player)
    (hne : ∃ i, i < board.len ∧ board.get i = ' ') :
    ∃ best, best < board.len ∧ board.get best = ' ' ∧
      computer_turn_minimax board cp cp.toggle = board.setC best cp.as_char ∧
      (∀ j, j < board.len → board.get j = ' ' →
        minimaxScore (board.setC j cp.as_char) 9 false cp cp.toggle ≤
          minimaxScore (board.setC best cp.as_char) 9 false cp cp.toggle) ∧
      ∀ j, j < best → board.get j = ' ' →
        minimaxScore (board.setC j cp.as_char) 9 false cp cp.toggle <
          minimaxScore (board.setC best cp.as_char) 9 false cp cp.toggle :=
  computer_turn_spec board cp cp.toggle hne

/-- Witness for C4 at a concrete board with one empty cell. -/
theorem selector_commits_first_best_witness :
    (∃ i, i < Board.len ['X', 'O', 'X', 'O', 'X', 'O', 'O', 'X', ' '] ∧
      Board.get ['X', 'O', 'X', 'O', 'X', 'O', 'O', 'X', ' '] i = ' ') ∧
    ∃ best,
      best < Board.len ['X', 'O', 'X', 'O', 'X', 'O', 'O', 'X', ' '] ∧
      Board.get ['X', 'O', 'X', 'O', 'X', 'O', 'O', 'X', ' '] best = ' ' ∧
      computer_turn_minimax ['X', 'O', 'X', 'O', 'X', 'O', 'O', 'X', ' ']
          Player.X Player.X.toggle =
        Board.setC ['X', 'O', 'X', 'O', 'X', 'O', 'O', 'X', ' '] best
          Player.X.as_char ∧
      (∀ j, j < Board.len ['X', 'O', 'X', 'O', 'X', 'O', 'O', 'X', ' '] →
        Board.get ['X', 'O', 'X', 'O', 'X', 'O', 'O', 'X', ' '] j = ' ' →
        minimaxScore
          (Board.setC ['X', 'O', 'X', 'O', 'X', 'O', 'O', 'X', ' '] j
            Player.X.as_char) 9 false Player.X Player.X.toggle ≤
          minimaxScore
            (Board.setC ['X', 'O', 'X', 'O', 'X', 'O', 'O', 'X', ' '] best
              Player.X.as_char) 9 false Player.X Player.X.toggle) ∧
      ∀ j, j < best →
        Board.get ['X', 'O', 'X', 'O', 'X', 'O', 'O', 'X', ' '] j = ' ' →
        minimaxScore
          (Board.setC ['X', 'O', 'X', 'O', 'X', 'O', 'O', 'X', ' '] j
            Player.X.as_char) 9 false Player.X Player.X.toggle <
          minimaxScore
            (Board.setC ['X', 'O', 'X', 'O', 'X', 'O', 'O', 'X', ' '] best
              Player.X.as_char) 9 false Player.X Player.X.toggle :=
  ⟨⟨8, by decide, by decide⟩,
    selector_commits_first_best ['X', 'O', 'X', 'O', 'X', 'O', 'O', 'X', ' ']
      Player.X ⟨8, by decide, by decide⟩⟩

/-- C5: the computer plays optimally: in every position reachable when the
computer moves first on the empty board and all its moves are chosen by
`computer_turn_minimax`, against any sequence of legal human replies, the
human is never the winner — every completed game is a draw or a computer
win. -/
theorem computer_never_loses (cp : Player) (b : Board) (t : Bool)
    (hg : GamePos cp cp.toggle b t) :
    check_winner b ≠ some cp.toggle :=
  (gamePos_inv cp b t hg).2.1

/-- Witness for C5: the position after the computer's first move from the
empty board is reachable, and the human is not the winner there. -/
theorem computer_never_loses_witness :
    check_winner (computer_turn_minimax emptyBoard Player.X Player.O) ≠
      some Player.O :=
  computer_never_loses Player.X _ false
    (GamePos.cmove GamePos.init (by decide) (by decide))

/-- C8: on a board with no empty cell the selector commits no move and
returns the board unchanged; with at least one empty cell it always commits
exactly one move at an empty cell; and every `minimax` score is an actual
game score in {−1, 0, 1}, so the `i32::MIN` / `i32::MAX` sentinels never
escape as a return value. -/
theorem selector_edge_cases (board : Board) (cp : Player) :
    (countEmpty board = 0 →
      computer_turn_minimax board cp cp.toggle = board) ∧
    (0 < countEmpty board → ∃ i, i < board.len ∧ board.get i = ' ' ∧
      computer_turn_minimax board cp cp.toggle = board.setC i cp.as_char) ∧
    ∀ (depth : Int) (m : Bool),
      minimaxScore board depth m cp cp.toggle = -1 ∨
      minimaxScore board depth m cp cp.toggle = 0 ∨
      minimaxScore board depth m cp cp.toggle = 1 := by
  refine ⟨?_, ?_, ?_⟩
  · intro hz
    exact computer_turn_of_full board cp cp.toggle
      (full_no_empty board ((countEmpty_eq_zero_iff board).mp hz))
  · intro hpos
    have hnf : is_board_full board = false := by
      rcases Bool.eq_false_or_eq_true (is_board_full board) with h | h
      · have := (countEmpty_eq_zero_iff board).mpr h
        omega
      · exact h
    obtain ⟨best, hblen, hbsp, hbeq, _, _⟩ :=
      computer_turn_spec board cp cp.toggle (not_full_exists_empty board hnf)
    exact ⟨best, hblen, hbsp, hbeq⟩
  · intro depth m
    have := minimaxScore_range board depth m cp cp.toggle
    omega

/-- Witness for C8 at a concrete board with one empty cell. -/
theorem selector_edge_cases_witness :
    0 < countEmpty ['X', 'O', 'X', 'O', 'X', 'O', 'O', 'X', ' '] ∧
    ∃ i, i < Board.len ['X', 'O', 'X', 'O', 'X', 'O', 'O', 'X', ' '] ∧
      Board.get ['X', 'O', 'X', 'O', 'X', 'O', 'O', 'X', ' '] i = ' ' ∧
      computer_turn_minimax ['X', 'O', 'X', 'O', 'X', 'O', 'O', 'X', ' ']
          Player.X Player.X.toggle =
        Board.setC ['X', 'O', 'X', 'O', 'X', 'O', 'O', 'X', ' '] i
          Player.X.as_char :=
  ⟨by decide,
    (selector_edge_cases ['X', 'O', 'X', 'O', 'X', 'O', 'O', 'X', ' ']
      Player.X).2.1 (by decide)⟩

theorem winner_agree (board : Board) : check_winner board = winner_spec board := by
  have key : ∀ p : Player,
      (((List.range 3).any fun row =>
        check_line board p.as_char (row * 3) (row * 3 + 1) (row * 3 + 2)) ||
       ((List.range 3).any fun col =>
        check_line board p.as_char col (col + 3) (col + 6)) ||
       (check_line board p.as_char 0 4 8 || check_line board p.as_char 2 4 6)) =
      (([[0, 1, 2], [3, 4, 5], [6, 7, 8],
         [0, 3, 6], [1, 4, 7], [2, 5, 8],
         [0, 4, 8], [2, 4, 6]] : List (List Nat)).any
        fun line => line.all fun ix => board.get ix == p.as_char) := by
    intro p
    have hrange : List.range 3 = [0, 1, 2] := rfl
    rw [hrange]
    simp only [List.any_cons, List.any_nil, List.all_cons, List.all_nil,
      check_line, Bool.or_false, Bool.and_true]
    norm_num
    simp only [Bool.or_assoc, Bool.and_assoc]
  simp only [check_winner, winner_spec]
  simp only [key Player.X, key Player.O]

/-- C10: `check_winner` agrees with the reference winner of the spec, which
evaluates all 8 winning lines (3 rows, 3 columns, 2 diagonals) for both
players and returns the first player in the enumeration order X, O holding a
complete line; in particular, on a (legally unreachable) board where both X
and O hold complete lines, it returns X. -/
theorem check_winner_matches_reference :
    (∀ board : Board, check_winner board = winner_spec board) ∧
    check_winner ['X', 'X', 'X', 'O', 'O', 'O', ' ', ' ', ' '] =
      some Player.X ∧
    winner_spec ['X', 'X', 'X', 'O', 'O', 'O', ' ', ' ', ' '] =
      some Player.X :=
  ⟨winner_agree, by decide, by decide⟩

/-- C2: `minimax` satisfies the recursive minimax contract: at a terminal
position (non-zero terminal score, zero depth, or full board) it returns the
terminal score with no recursion; otherwise its score is the maximum (when
maximizing) or minimum (when minimizing) of the scores of the positions
obtained by placing the side-to-move's mark in each empty cell, with the
depth decremented and the flag flipped — the aggregate over the non-empty
child list, which the returned score belongs to and bounds. -/
theorem minimax_recursive_contract (board : Board) (depth : Int) (m : Bool)
    (cp : Player) :
    (minimaxScore board depth m cp cp.toggle =
      if evaluate_board board cp cp.toggle ≠ 0 ∨ depth = 0 ∨
          is_board_full board = true then
        evaluate_board board cp cp.toggle
      else if m then
        ((empties board).map fun i =>
          minimaxScore (board.setC i cp.as_char) (depth - 1) false
            cp cp.toggle).foldl max i32_min
      else
        ((empties board).map fun i =>
          minimaxScore (board.setC i cp.toggle.as_char) (depth - 1) true
            cp cp.toggle).foldl min i32_max) ∧
    (¬(evaluate_board board cp cp.toggle ≠ 0 ∨ depth = 0 ∨
        is_board_full board = true) →
      (m = true →
        minimaxScore board depth m cp cp.toggle ∈
          ((empties board).map fun i =>
            minimaxScore (board.setC i cp.as_char) (depth - 1) false
              cp cp.toggle) ∧
        ∀ s ∈ (empties board).map fun i =>
            minimaxScore (board.setC i cp.as_char) (depth - 1) false
              cp cp.toggle,
          s ≤ minimaxScore board depth m cp cp.toggle) ∧
      (m = false →
        minimaxScore board depth m cp cp.toggle ∈
          ((empties board).map fun i =>
            minimaxScore (board.setC i cp.toggle.as_char) (depth - 1) true
              cp cp.toggle) ∧
        ∀ s ∈ (empties board).map fun i =>
            minimaxScore (board.setC i cp.toggle.as_char) (depth - 1) true
              cp cp.toggle,
          minimaxScore board depth m cp cp.toggle ≤ s)) := by
  constructor
  · by_cases hterm : evaluate_board board cp cp.toggle ≠ 0 ∨ depth = 0 ∨
      is_board_full board = true
    · rw [if_pos hterm]
      exact minimaxScore_terminal board depth m cp cp.toggle hterm
    · rw [if_neg hterm]
      cases m with
      | true =>
          rw [if_pos rfl]
          exact minimaxScore_of_max board depth cp cp.toggle hterm
      | false =>
          rw [if_neg (by simp)]
          exact minimaxScore_of_min board depth cp cp.toggle hterm
  · intro hterm
    obtain ⟨hnf, _⟩ := not_terminal_facts board depth cp cp.toggle hterm
    have hne := empties_ne_nil_of_not_full board hnf
    constructor
    · intro hm
      subst hm
      rw [minimaxScore_of_max board depth cp cp.toggle hterm]
      constructor
      · rcases foldl_max_mem_or ((empties board).map fun i =>
          minimaxScore (board.setC i cp.as_char) (depth - 1) false
            cp cp.toggle) i32_min with h | h
        · exfalso
          obtain ⟨x₀, hx₀⟩ := List.exists_mem_of_ne_nil _
            (by simpa using hne :
              ((empties board).map fun i =>
                minimaxScore (board.setC i cp.as_char) (depth - 1) false
                  cp cp.toggle) ≠ [])
          have h1 := foldl_max_ge_mem _ x₀ hx₀ i32_min
          obtain ⟨j, _, hjx⟩ := List.mem_map.mp hx₀
          have h2 := (minimaxScore_range (board.setC j cp.as_char)
            (depth - 1) false cp cp.toggle).1
          rw [hjx] at h2
          have h3 : i32_min < -1 := by norm_num [i32_min]
          omega
        · exact h
      · intro s hs
        exact foldl_max_ge_mem _ s hs i32_min
    · intro hm
      subst hm
      rw [minimaxScore_of_min board depth cp cp.toggle hterm]
      constructor
      · rcases foldl_min_mem_or ((empties board).map fun i =>
          minimaxScore (board.setC i cp.toggle.as_char) (depth - 1) true
            cp cp.toggle) i32_max with h | h
        · exfalso
          obtain ⟨x₀, hx₀⟩ := List.exists_mem_of_ne_nil _
            (by simpa using hne :
              ((empties board).map fun i =>
                minimaxScore (board.setC i cp.toggle.as_char) (depth - 1) true
                  cp cp.toggle) ≠ [])
          have h1 := foldl_min_le_mem _ x₀ hx₀ i32_max
          obtain ⟨j, _, hjx⟩ := List.mem_map.mp hx₀
          have h2 := (minimaxScore_range (board.setC j cp.toggle.as_char)
            (depth - 1) true cp cp.toggle).2
          rw [hjx] at h2
          have h3 : (1 : Int) < i32_max := by norm_num [i32_max]
          omega
        · exact h
      · intro s hs
        exact foldl_min_le_mem _ s hs i32_max

/-- Witness for C2 at a concrete non-terminal board, maximizing. -/
theorem minimax_recursive_contract_witness :
    ¬(evaluate_board ['X', 'O', 'X', 'O', 'X', 'O', 'O', 'X', ' ']
        Player.X Player.X.toggle ≠ 0 ∨ (9 : Int) = 0 ∨
      is_board_full ['X', 'O', 'X', 'O', 'X', 'O', 'O', 'X', ' '] = true) ∧
    (minimaxScore ['X', 'O', 'X', 'O', 'X', 'O', 'O', 'X', ' '] 9 true
        Player.X Player.X.toggle ∈
      ((empties ['X', 'O', 'X', 'O', 'X', 'O', 'O', 'X', ' ']).map fun i =>
        minimaxScore
          (Board.setC ['X', 'O', 'X', 'O', 'X', 'O', 'O', 'X', ' '] i
            Player.X.as_char) (9 - 1) false Player.X Player.X.toggle) ∧
    ∀ s ∈ (empties ['X', 'O', 'X', 'O', 'X', 'O', 'O', 'X', ' ']).map fun i =>
        minimaxScore
          (Board.setC ['X', 'O', 'X', 'O', 'X', 'O', 'O', 'X', ' '] i
            Player.X.as_char) (9 - 1) false Player.X Player.X.toggle,
      s ≤ minimaxScore ['X', 'O', 'X', 'O', 'X', 'O', 'O', 'X', ' '] 9 true
        Player.X Player.X.toggle) :=
  ⟨by decide,
    ((minimax_recursive_contract ['X', 'O', 'X', 'O', 'X', 'O', 'O', 'X', ' ']
      9 true Player.X).2 (by decide)).1 rfl⟩

end TicTacToe
